import Mathlib

/-!
# A verification model of the qpid-proton proactor core

The repository's visible source is `proton/proactor.h`: the declarations and
documented contract of the proactor engine (connection slots, the
wait/get/done event-batch protocol, cross-thread wake coalescing, the single
timer, the interrupt counter).  The engine implementation itself is not part
of the visible source, so the operational model below is built from the
specification's description of that engine.  API calls are deterministic
state transformers named after the C functions; internal activity (event
generation by transport bindings, scheduling of ready sources, clock
advance) is a labelled nondeterministic step relation.
-/

set_option autoImplicit false

namespace Proactor

/-- Connection identifiers stand for the externally owned `pn_connection_t`
objects handed to the proactor. -/
abbrev Cid := Nat

/-- Modelled from the spec: the vocabulary of delivered event kinds that the
claims are about.  `connEvent` stands for any ordinary protocol event of a
connection (init/bound/open/close/flow/delivery and so on, abstracted by a
tag), `transportClosed` is the terminal event of a bound connection and may
carry a condition, `connectionWake` is PN_CONNECTION_WAKE,
`proactorInterrupt` is PN_PROACTOR_INTERRUPT and `proactorTimeout` is
PN_PROACTOR_TIMEOUT. -/
inductive PnEvent where
  | connEvent (c : Cid) (tag : Nat)
  | transportClosed (c : Cid) (cond : Option Nat)
  | connectionWake (c : Cid)
  | proactorInterrupt
  | proactorTimeout
  deriving DecidableEq, Repr

/-- The connection an event belongs to, if any. -/
def PnEvent.connOf : PnEvent → Option Cid
  | .connEvent c _ => some c
  | .transportClosed c _ => some c
  | .connectionWake c => some c
  | .proactorInterrupt => none
  | .proactorTimeout => none

/-- Whether an event is the terminal transport-closed event. -/
def PnEvent.isClosed : PnEvent → Bool
  | .transportClosed _ _ => true
  | _ => false

/-- Modelled from the spec: a Connection Slot, the ownership record pairing a
bound connection with its pending-wake flag, its accumulated but undelivered
event sequence, and whether its transport is still open (no terminal event
generated yet). -/
structure Slot where
  wakePending : Bool
  pending : List PnEvent
  transportOpen : Bool
  deriving DecidableEq, Repr

/-- The internal source an event batch was produced by: a connection slot or
a proactor-global occurrence (timer or interrupt). -/
inductive Source where
  | conn (c : Cid)
  | proactorGlobal
  deriving DecidableEq, Repr

/-- Modelled from the spec: an Event Batch, the caller-visible handle for the
serialized slice of events of exactly one source, valid until the matching
`pn_proactor_done` call. -/
structure Batch where
  id : Nat
  src : Source
  events : List PnEvent
  deriving DecidableEq, Repr

/-- Modelled from the spec: the Proactor state.  `slots` are the connection
slots, `dom` the identifiers ever registered (used by the ready-source scan),
`interrupts` the Interrupt Counter, `timer` the single armed deadline
(absolute time), `clock` the monotone millisecond clock behind
`pn_proactor_now`, `outstanding` the batches returned by wait/get whose
`done` has not happened yet, `delivered` the ghost log of all events handed
to application threads in delivery order, `interruptCalls` the ghost count of
`pn_proactor_interrupt` calls, and `genLog` the ghost log of per-connection
events in internal generation order. -/
structure PState where
  slots : Cid → Option Slot
  dom : List Cid
  interrupts : Nat
  timer : Option Nat
  clock : Nat
  outstanding : List Batch
  nextId : Nat
  delivered : List PnEvent
  interruptCalls : Nat
  genLog : List PnEvent

/-- The freshly created proactor: no slots, nothing armed, nothing pending. -/
def initState : PState :=
  { slots := fun _ => none, dom := [], interrupts := 0, timer := none,
    clock := 0, outstanding := [], nextId := 0, delivered := [],
    interruptCalls := 0, genLog := [] }

/-- Replace the slot stored for connection `c`. -/
def setSlot (s : PState) (c : Cid) (sl : Slot) : PState :=
  { s with slots := fun c2 => if c2 = c then some sl else s.slots c2 }

/-- Remove the slot stored for connection `c`. -/
def eraseSlot (s : PState) (c : Cid) : PState :=
  { s with slots := fun c2 => if c2 = c then none else s.slots c2 }

/-- A connection is busy when a thread holds an outstanding (not yet done)
batch for it. -/
def busy (s : PState) (c : Cid) : Bool :=
  s.outstanding.any (fun b => b.src == Source.conn c)

/-- The events of a log that belong to connection `c`. -/
def connFilter (c : Cid) (l : List PnEvent) : List PnEvent :=
  l.filter (fun e => e.connOf == some c)

/-- Number of PN_PROACTOR_INTERRUPT events in a log. -/
def interruptCount (l : List PnEvent) : Nat :=
  l.countP (fun e => e == PnEvent.proactorInterrupt)

/-- Number of PN_PROACTOR_TIMEOUT events in a log. -/
def timeoutCount (l : List PnEvent) : Nat :=
  l.countP (fun e => e == PnEvent.proactorTimeout)

/-- A log with no terminal transport-closed event. -/
def closedFree (l : List PnEvent) : Prop :=
  ∀ e ∈ l, e.isClosed = false

/-- A log in which only the last event may be a terminal transport-closed
event: nothing follows a closed event and at most one closed event occurs. -/
def terminalOk (l : List PnEvent) : Prop :=
  ∀ e ∈ l.dropLast, e.isClosed = false

/-- Whether the armed timer deadline has been reached. -/
def timerReady (s : PState) : Bool :=
  match s.timer with
  | some d => decide (d ≤ s.clock)
  | none => false

/-- Modelled from the spec: `pn_proactor_connect`.  The call takes ownership
of a fresh connection and never fails observably: it always returns the new
state.  `err = none` models a successful start of the asynchronous
resolution/connect sequence; `err = some e` models a resolution or connect
failure, for which the call synthesizes a terminal closed-with-error event
into the new slot's pending stream instead of reporting an error. -/
def pn_proactor_connect (s : PState) (c : Cid) (err : Option Nat) : PState :=
  match s.slots c with
  | some _ => s
  | none =>
    match err with
    | none =>
      { s with slots := fun c2 => if c2 = c then some ⟨false, [], true⟩ else s.slots c2,
               dom := c :: s.dom }
    | some e =>
      { s with slots := fun c2 => if c2 = c then
                 some ⟨false, [PnEvent.transportClosed c (some e)], false⟩
               else s.slots c2,
               dom := c :: s.dom,
               genLog := s.genLog ++ [PnEvent.transportClosed c (some e)] }

/-- Modelled from the spec: `pn_connection_wake`.  If the connection does not
belong to the proactor the call does nothing.  Otherwise it sets the
pending-wake flag and marks the connection ready; calls arriving while a wake
is already pending coalesce (the state is unchanged).  A wake for a
connection whose terminal close has already been generated is dropped, since
no event may follow the transport-closed event. -/
def pn_connection_wake (s : PState) (c : Cid) : PState :=
  match s.slots c with
  | none => s
  | some sl =>
    if sl.transportOpen && !sl.wakePending then
      let s1 := setSlot s c { sl with wakePending := true,
                                      pending := sl.pending ++ [PnEvent.connectionWake c] }
      { s1 with genLog := s1.genLog ++ [PnEvent.connectionWake c] }
    else s

/-- Modelled from the spec: `pn_proactor_interrupt` increments the Interrupt
Counter, guaranteeing exactly one future interrupt delivery per call. -/
def pn_proactor_interrupt (s : PState) : PState :=
  { s with interrupts := s.interrupts + 1, interruptCalls := s.interruptCalls + 1 }

/-- Modelled from the spec: `pn_proactor_set_timeout` arms or re-arms the
single timer, replacing any previous unfired deadline. -/
def pn_proactor_set_timeout (s : PState) (ms : Nat) : PState :=
  { s with timer := some (s.clock + ms) }

/-- Modelled from the spec: `pn_proactor_cancel_timeout` disarms the timer if
armed and does nothing otherwise. -/
def pn_proactor_cancel_timeout (s : PState) : PState :=
  { s with timer := none }

/-- Modelled from the spec: `pn_proactor_release_connection` disassociates a
connection from the proactor; no further events for it will be produced.  If
the connection does not belong to a proactor the call does nothing. -/
def pn_proactor_release_connection (s : PState) (c : Cid) : PState :=
  match s.slots c with
  | none => s
  | some _ => eraseSlot s c

/-- Modelled from the spec: `pn_connection_proactor`, true when the
connection currently belongs to the proactor. -/
def pn_connection_proactor (s : PState) (c : Cid) : Bool :=
  (s.slots c).isSome

/-- Modelled from the spec: `pn_proactor_now` reads the monotone
elapsed-milliseconds clock. -/
def pn_proactor_now (s : PState) : Nat :=
  s.clock

/-- Modelled from the spec: the internal delivery of a connection batch by
wait/get.  The slot's accumulated events are drained, in generation order,
into one batch; the slot is marked busy (the batch becomes outstanding) and
the wake flag is cleared. -/
def deliverConn (s : PState) (c : Cid) (sl : Slot) : PState :=
  let s1 := setSlot s c { sl with wakePending := false, pending := [] }
  { s1 with outstanding := s1.outstanding ++ [⟨s.nextId, Source.conn c, sl.pending⟩],
            nextId := s.nextId + 1,
            delivered := s.delivered ++ sl.pending }

/-- Modelled from the spec: delivery of one PN_PROACTOR_INTERRUPT batch,
consuming exactly one unit of the Interrupt Counter. -/
def deliverInterrupt (s : PState) : PState :=
  { s with interrupts := s.interrupts - 1,
           outstanding := s.outstanding ++ [⟨s.nextId, Source.proactorGlobal, [PnEvent.proactorInterrupt]⟩],
           nextId := s.nextId + 1,
           delivered := s.delivered ++ [PnEvent.proactorInterrupt] }

/-- Modelled from the spec: the timer fires, delivering one
PN_PROACTOR_TIMEOUT batch and disarming the timer. -/
def deliverTimeout (s : PState) : PState :=
  { s with timer := none,
           outstanding := s.outstanding ++ [⟨s.nextId, Source.proactorGlobal, [PnEvent.proactorTimeout]⟩],
           nextId := s.nextId + 1,
           delivered := s.delivered ++ [PnEvent.proactorTimeout] }

/-- Modelled from the spec: `pn_proactor_done`.  The batch stops being
outstanding, releasing the slot's busy state; if the batch carried the
connection's terminal transport-closed event, the slot is destroyed and the
connection object is released. -/
def pn_proactor_done (s : PState) (b : Batch) : PState :=
  let s1 := { s with outstanding := s.outstanding.erase b }
  match b.src with
  | Source.conn c => if b.events.any PnEvent.isClosed then eraseSlot s1 c else s1
  | Source.proactorGlobal => s1

/-- Modelled from the spec: a transport binding appends one ordinary protocol
event to its slot's pending stream. -/
def genEvent (s : PState) (c : Cid) (sl : Slot) (tag : Nat) : PState :=
  let s1 := setSlot s c { sl with pending := sl.pending ++ [PnEvent.connEvent c tag] }
  { s1 with genLog := s1.genLog ++ [PnEvent.connEvent c tag] }

/-- Modelled from the spec: a transport binding detects close (peer close,
local close completion or I/O error) and generates the terminal
transport-closed event, after which it generates nothing further. -/
def genClose (s : PState) (c : Cid) (sl : Slot) (cond : Option Nat) : PState :=
  let s1 := setSlot s c { sl with pending := sl.pending ++ [PnEvent.transportClosed c cond],
                                  transportOpen := false }
  { s1 with genLog := s1.genLog ++ [PnEvent.transportClosed c cond] }

/-- The clock advances by `k` milliseconds. -/
def tickF (s : PState) (k : Nat) : PState :=
  { s with clock := s.clock + k }

/-- Scan the registered connections for one that is ready for delivery: not
busy and with a non-empty pending stream. -/
def findReadyConn (s : PState) : List Cid → Option (Cid × Slot)
  | [] => none
  | c :: rest =>
    match s.slots c with
    | some sl =>
      if sl.pending ≠ [] ∧ busy s c = false then some (c, sl)
      else findReadyConn s rest
    | none => findReadyConn s rest

/-- Modelled from the spec: `pn_proactor_get`.  It never blocks: if an item
is ready it returns the batch together with the successor state exactly as a
wait delivery would, and otherwise it returns immediately with `none`. -/
def pn_proactor_get (s : PState) : Option (Batch × PState) :=
  if 0 < s.interrupts then
    some (⟨s.nextId, Source.proactorGlobal, [PnEvent.proactorInterrupt]⟩, deliverInterrupt s)
  else if timerReady s then
    some (⟨s.nextId, Source.proactorGlobal, [PnEvent.proactorTimeout]⟩, deliverTimeout s)
  else
    match findReadyConn s s.dom with
    | some (c, sl) => some (⟨s.nextId, Source.conn c, sl.pending⟩, deliverConn s c sl)
    | none => none

/-- Some item (interrupt, timer or a ready connection) is available for a
wait/get delivery. -/
def ready (s : PState) : Prop :=
  0 < s.interrupts ∨ timerReady s = true ∨
    ∃ c sl, s.slots c = some sl ∧ busy s c = false ∧ sl.pending ≠ []

/-- Labels of the proactor transition system: the thread-safe API calls, the
delivery of a batch by a wait/get call, the matching done call, the internal
event generation of the transport bindings, and clock advance. -/
inductive Act where
  | connect (c : Cid) (err : Option Nat)
  | wake (c : Cid)
  | interrupt
  | setTimeout (ms : Nat)
  | cancelTimeout
  | release (c : Cid)
  | deliver (b : Batch)
  | done (b : Batch)
  | genEvent (c : Cid) (tag : Nat)
  | genClose (c : Cid) (cond : Option Nat)
  | tick (k : Nat)
  deriving DecidableEq, Repr

/-- Modelled from the spec: the proactor step relation.  `deliver` steps are
what a `pn_proactor_wait` returns (and `pn_proactor_get` when an item is
ready): they require a ready source, and a connection source must not be
busy — a second wait/get is never satisfied for a connection whose previous
batch is outstanding.  Connect requires a fresh connection object. -/
inductive Step : PState → Act → PState → Prop where
  | connect {s : PState} {c : Cid} {err : Option Nat}
      (h1 : s.slots c = none) (h2 : busy s c = false)
      (h3 : connFilter c s.genLog = []) :
      Step s (Act.connect c err) (pn_proactor_connect s c err)
  | wake {s : PState} {c : Cid} :
      Step s (Act.wake c) (pn_connection_wake s c)
  | interrupt {s : PState} :
      Step s Act.interrupt (pn_proactor_interrupt s)
  | setTimeout {s : PState} {ms : Nat} :
      Step s (Act.setTimeout ms) (pn_proactor_set_timeout s ms)
  | cancelTimeout {s : PState} :
      Step s Act.cancelTimeout (pn_proactor_cancel_timeout s)
  | release {s : PState} {c : Cid} :
      Step s (Act.release c) (pn_proactor_release_connection s c)
  | deliver_conn {s : PState} {c : Cid} {sl : Slot}
      (h1 : s.slots c = some sl) (h2 : busy s c = false) (h3 : sl.pending ≠ []) :
      Step s (Act.deliver ⟨s.nextId, Source.conn c, sl.pending⟩) (deliverConn s c sl)
  | deliver_interrupt {s : PState} (h : 0 < s.interrupts) :
      Step s (Act.deliver ⟨s.nextId, Source.proactorGlobal, [PnEvent.proactorInterrupt]⟩)
        (deliverInterrupt s)
  | deliver_timeout {s : PState} {d : Nat} (h1 : s.timer = some d) (h2 : d ≤ s.clock) :
      Step s (Act.deliver ⟨s.nextId, Source.proactorGlobal, [PnEvent.proactorTimeout]⟩)
        (deliverTimeout s)
  | done {s : PState} {b : Batch} (h : b ∈ s.outstanding) :
      Step s (Act.done b) (pn_proactor_done s b)
  | gen_event {s : PState} {c : Cid} {sl : Slot} {tag : Nat}
      (h1 : s.slots c = some sl) (h2 : sl.transportOpen = true) :
      Step s (Act.genEvent c tag) (genEvent s c sl tag)
  | gen_close {s : PState} {c : Cid} {sl : Slot} {cond : Option Nat}
      (h1 : s.slots c = some sl) (h2 : sl.transportOpen = true) :
      Step s (Act.genClose c cond) (genClose s c sl cond)
  | tick {s : PState} {k : Nat} :
      Step s (Act.tick k) (tickF s k)

/-- A finite execution of the proactor: a sequence of steps with its trace of
labels. -/
inductive Exec : PState → List Act → PState → Prop where
  | nil {s : PState} : Exec s [] s
  | cons {s : PState} {a : Act} {s2 : PState} {tr : List Act} {s3 : PState} :
      Step s a s2 → Exec s2 tr s3 → Exec s (a :: tr) s3

/-- States reachable from a freshly created proactor. -/
inductive Reach : PState → Prop where
  | init : Reach initState
  | step {s : PState} {a : Act} {s2 : PState} : Reach s → Step s a s2 → Reach s2

/-! ### Log bookkeeping lemmas -/

theorem connFilter_append (c : Cid) (l r : List PnEvent) :
    connFilter c (l ++ r) = connFilter c l ++ connFilter c r := by
  simp [connFilter]

theorem connFilter_own {c : Cid} {e : PnEvent} (h : e.connOf = some c) :
    connFilter c [e] = [e] := by
  simp [connFilter, h]

theorem connFilter_other {c : Cid} {e : PnEvent} (h : e.connOf ≠ some c) :
    connFilter c [e] = [] := by
  simp [connFilter, h]

theorem connFilter_all {c : Cid} {l : List PnEvent} (h : ∀ e ∈ l, e.connOf = some c) :
    connFilter c l = l := by
  apply List.filter_eq_self.mpr
  intro a ha
  simp [h a ha]

theorem connFilter_nil_of {c : Cid} {l : List PnEvent} (h : ∀ e ∈ l, e.connOf ≠ some c) :
    connFilter c l = [] := by
  apply List.filter_eq_nil_iff.mpr
  intro a ha
  simp [h a ha]

theorem mem_connFilter {c : Cid} {e : PnEvent} {l : List PnEvent} :
    e ∈ connFilter c l ↔ e ∈ l ∧ e.connOf = some c := by
  simp [connFilter]

theorem closedFree_nil : closedFree [] := by
  intro e he
  cases he

theorem closedFree_append {l r : List PnEvent} (hl : closedFree l) (hr : closedFree r) :
    closedFree (l ++ r) := by
  intro e he
  rcases List.mem_append.mp he with h | h
  · exact hl e h
  · exact hr e h

theorem closedFree_of_append_left {l r : List PnEvent} (h : closedFree (l ++ r)) :
    closedFree l := by
  intro e he
  exact h e (List.mem_append_left _ he)

theorem closedFree_of_append_right {l r : List PnEvent} (h : closedFree (l ++ r)) :
    closedFree r := by
  intro e he
  exact h e (List.mem_append_right _ he)

theorem terminalOk_nil : terminalOk [] := by
  intro e he
  cases he

theorem terminalOk_concat {l : List PnEvent} (hl : closedFree l) (e : PnEvent) :
    terminalOk (l ++ [e]) := by
  intro x hx
  rw [List.dropLast_concat] at hx
  exact hl x hx

theorem terminalOk_of_closedFree {l : List PnEvent} (h : closedFree l) : terminalOk l := by
  intro e he
  exact h e ((List.dropLast_sublist l).subset he)

theorem dropLast_append_left {α : Type} (l : List α) {r : List α} (h : r ≠ []) :
    (l ++ r).dropLast = l ++ r.dropLast := by
  induction l with
  | nil => simp
  | cons x l ih =>
    cases hl : l ++ r with
    | nil => exact absurd (List.append_eq_nil.mp hl).2 h
    | cons y ys =>
      calc ((x :: l) ++ r).dropLast = (x :: (y :: ys)).dropLast := by rw [List.cons_append, hl]
      _ = x :: (y :: ys).dropLast := rfl
      _ = x :: (l ++ r).dropLast := by rw [hl]
      _ = (x :: l) ++ r.dropLast := by rw [ih]; rfl

theorem terminalOk_of_append_left {l r : List PnEvent} (h : terminalOk (l ++ r)) :
    terminalOk l := by
  cases hr : r with
  | nil =>
    subst hr
    rw [List.append_nil] at h
    exact h
  | cons y ys =>
    intro e he
    apply h
    rw [dropLast_append_left l (by simp [hr])]
    exact List.mem_append_left _ ((List.dropLast_sublist l).subset he)

theorem terminalOk_count {l : List PnEvent} (h : terminalOk l) :
    l.countP (fun e => e.isClosed) ≤ 1 := by
  by_cases hl : l = []
  · simp [hl]
  · have hsplit := List.dropLast_append_getLast hl
    have h0 : l.dropLast.countP (fun e => e.isClosed) = 0 := by
      apply List.countP_eq_zero.mpr
      intro a ha
      simp [h a ha]
    calc l.countP (fun e => e.isClosed)
        = (l.dropLast ++ [l.getLast hl]).countP (fun e => e.isClosed) := by rw [hsplit]
      _ = l.dropLast.countP (fun e => e.isClosed)
            + [l.getLast hl].countP (fun e => e.isClosed) := List.countP_append _ _ _
      _ ≤ 0 + 1 := by
          rw [h0]
          rcases hx : (l.getLast hl).isClosed <;> simp [List.countP_cons, hx]
      _ = 1 := rfl

theorem countP_erase_of_mem {α : Type} [DecidableEq α] {p : α → Bool} {b : α} {l : List α}
    (hmem : b ∈ l) (hp : p b = true) : l.countP p = (l.erase b).countP p + 1 := by
  have hperm := List.perm_cons_erase hmem
  rw [hperm.countP_eq p]
  simp [List.countP_cons, hp]

/-! ### Busy-flag lemmas -/

theorem busy_false_iff {s : PState} {c : Cid} :
    busy s c = false ↔ ∀ b ∈ s.outstanding, b.src ≠ Source.conn c := by
  simp [busy, List.any_eq_false]

theorem busy_true_iff {s : PState} {c : Cid} :
    busy s c = true ↔ ∃ b ∈ s.outstanding, b.src = Source.conn c := by
  simp [busy, List.any_eq_true]

theorem countP_conn_eq_zero {s : PState} {c : Cid} (h : busy s c = false) :
    s.outstanding.countP (fun b => b.src == Source.conn c) = 0 := by
  apply List.countP_eq_zero.mpr
  intro b hb
  simp [busy_false_iff.mp h b hb]

/-! ### Equation lemmas for the match-based operations -/

theorem wake_none {s : PState} {c : Cid} (hsl : s.slots c = none) :
    pn_connection_wake s c = s := by
  simp [pn_connection_wake, hsl]

theorem wake_coalesce {s : PState} {c : Cid} {sl : Slot} (hsl : s.slots c = some sl)
    (hcond : (sl.transportOpen && !sl.wakePending) = false) :
    pn_connection_wake s c = s := by
  simp only [pn_connection_wake, hsl, hcond]
  rfl

theorem wake_set {s : PState} {c : Cid} {sl : Slot} (hsl : s.slots c = some sl)
    (hcond : (sl.transportOpen && !sl.wakePending) = true) :
    pn_connection_wake s c =
      { setSlot s c { sl with wakePending := true,
                              pending := sl.pending ++ [PnEvent.connectionWake c] }
        with genLog := s.genLog ++ [PnEvent.connectionWake c] } := by
  simp only [pn_connection_wake, hsl, hcond]
  rfl

theorem connect_ok {s : PState} {c : Cid} (hsl : s.slots c = none) :
    pn_proactor_connect s c none =
      { s with slots := fun c2 => if c2 = c then some ⟨false, [], true⟩ else s.slots c2,
               dom := c :: s.dom } := by
  simp [pn_proactor_connect, hsl]

theorem connect_fail {s : PState} {c : Cid} {e : Nat} (hsl : s.slots c = none) :
    pn_proactor_connect s c (some e) =
      { s with slots := fun c2 => if c2 = c then
                 some ⟨false, [PnEvent.transportClosed c (some e)], false⟩
               else s.slots c2,
               dom := c :: s.dom,
               genLog := s.genLog ++ [PnEvent.transportClosed c (some e)] } := by
  simp [pn_proactor_connect, hsl]

theorem release_none {s : PState} {c : Cid} (hsl : s.slots c = none) :
    pn_proactor_release_connection s c = s := by
  simp [pn_proactor_release_connection, hsl]

theorem release_some {s : PState} {c : Cid} {sl : Slot} (hsl : s.slots c = some sl) :
    pn_proactor_release_connection s c = eraseSlot s c := by
  simp [pn_proactor_release_connection, hsl]

theorem done_global {s : PState} {b : Batch} (hsrc : b.src = Source.proactorGlobal) :
    pn_proactor_done s b = { s with outstanding := s.outstanding.erase b } := by
  simp [pn_proactor_done, hsrc]

theorem done_conn_live {s : PState} {b : Batch} {c : Cid} (hsrc : b.src = Source.conn c)
    (hcl : b.events.any PnEvent.isClosed = false) :
    pn_proactor_done s b = { s with outstanding := s.outstanding.erase b } := by
  simp [pn_proactor_done, hsrc, hcl]

theorem done_conn_terminal {s : PState} {b : Batch} {c : Cid} (hsrc : b.src = Source.conn c)
    (hcl : b.events.any PnEvent.isClosed = true) :
    pn_proactor_done s b = eraseSlot { s with outstanding := s.outstanding.erase b } c := by
  simp [pn_proactor_done, hsrc, hcl]

/-! ### The well-formedness invariant of reachable proactor states -/

/-- The global invariant maintained by every proactor step: the ready-scan
domain covers all slots, at most one batch per connection is outstanding, a
slot's pending events all belong to it and continue the already delivered
events of that connection in generation order, generation for a connection
stops at (and never repeats) its terminal closed event, outstanding batch
events were delivered and belong to their batch's connection, and the
interrupt ledger balances. -/
structure WF (s : PState) : Prop where
  domComplete : ∀ c sl, s.slots c = some sl → c ∈ s.dom
  oneBatch : ∀ c, s.outstanding.countP (fun b => b.src == Source.conn c) ≤ 1
  pendingConn : ∀ c sl, s.slots c = some sl → ∀ e ∈ sl.pending, e.connOf = some c
  genPending : ∀ c sl, s.slots c = some sl →
    connFilter c s.genLog = connFilter c s.delivered ++ sl.pending
  genPrefix : ∀ c, ∃ rest, connFilter c s.genLog = connFilter c s.delivered ++ rest
  openNoClosed : ∀ c sl, s.slots c = some sl → sl.transportOpen = true →
    closedFree (connFilter c s.genLog)
  closedGen : ∀ c sl, s.slots c = some sl → sl.transportOpen = false →
    ∃ e ∈ connFilter c s.genLog, e.isClosed = true
  termOk : ∀ c, terminalOk (connFilter c s.genLog)
  outDelivered : ∀ b ∈ s.outstanding, ∀ e ∈ b.events, e ∈ s.delivered
  outConn : ∀ b ∈ s.outstanding, ∀ c, b.src = Source.conn c → ∀ e ∈ b.events, e.connOf = some c
  intrInv : s.interrupts + interruptCount s.delivered = s.interruptCalls

theorem wf_init : WF initState := by
  refine ⟨?_, ?_, ?_, ?_, ?_, ?_, ?_, ?_, ?_, ?_, ?_⟩ <;>
    simp [initState, connFilter, interruptCount, terminalOk, closedFree]

theorem connFilter_append_own {c : Cid} {l : List PnEvent} {e : PnEvent}
    (h : e.connOf = some c) : connFilter c (l ++ [e]) = connFilter c l ++ [e] := by
  rw [connFilter_append, connFilter_own h]

theorem connFilter_append_other {c : Cid} {l : List PnEvent} {e : PnEvent}
    (h : e.connOf ≠ some c) : connFilter c (l ++ [e]) = connFilter c l := by
  rw [connFilter_append, connFilter_other h, List.append_nil]

theorem slots_setSlot {s : PState} {c : Cid} {sl : Slot} {c2 : Cid} :
    (setSlot s c sl).slots c2 = if c2 = c then some sl else s.slots c2 := rfl

theorem some_ne_of_ne {c2 c : Cid} (h : c2 ≠ c) : (some c : Option Cid) ≠ some c2 := by
  intro heq
  exact h (Option.some.inj heq).symm

theorem connOf_wake (c : Cid) : (PnEvent.connectionWake c).connOf = some c := rfl

theorem connOf_closed (c : Cid) (cond : Option Nat) :
    (PnEvent.transportClosed c cond).connOf = some c := rfl

theorem connOf_connEvent (c : Cid) (tag : Nat) :
    (PnEvent.connEvent c tag).connOf = some c := rfl

theorem connOf_ne_of_ne {e : PnEvent} {c c2 : Cid} (he : e.connOf = some c) (h : c2 ≠ c) :
    e.connOf ≠ some c2 := by
  rw [he]
  exact some_ne_of_ne h

/-! ### Preservation of the invariant by every step -/

theorem wf_interruptF {s : PState} (h : WF s) : WF (pn_proactor_interrupt s) :=
  ⟨h.domComplete, h.oneBatch, h.pendingConn, h.genPending, h.genPrefix, h.openNoClosed,
   h.closedGen, h.termOk, h.outDelivered, h.outConn, by
     have h2 := h.intrInv
     simp only [pn_proactor_interrupt]
     omega⟩

theorem wf_setTimeoutF {s : PState} {ms : Nat} (h : WF s) :
    WF (pn_proactor_set_timeout s ms) :=
  ⟨h.domComplete, h.oneBatch, h.pendingConn, h.genPending, h.genPrefix, h.openNoClosed,
   h.closedGen, h.termOk, h.outDelivered, h.outConn, h.intrInv⟩

theorem wf_cancelTimeoutF {s : PState} (h : WF s) : WF (pn_proactor_cancel_timeout s) :=
  ⟨h.domComplete, h.oneBatch, h.pendingConn, h.genPending, h.genPrefix, h.openNoClosed,
   h.closedGen, h.termOk, h.outDelivered, h.outConn, h.intrInv⟩

theorem wf_tickF {s : PState} {k : Nat} (h : WF s) : WF (tickF s k) :=
  ⟨h.domComplete, h.oneBatch, h.pendingConn, h.genPending, h.genPrefix, h.openNoClosed,
   h.closedGen, h.termOk, h.outDelivered, h.outConn, h.intrInv⟩

theorem wf_wakeF {s : PState} {c : Cid} (h : WF s) : WF (pn_connection_wake s c) := by
  cases hsl : s.slots c with
  | none =>
    rw [wake_none hsl]
    exact h
  | some sl =>
    cases hcond : (sl.transportOpen && !sl.wakePending) with
    | false =>
      rw [wake_coalesce hsl hcond]
      exact h
    | true =>
      rw [wake_set hsl hcond]
      have hopen : sl.transportOpen = true := ((Bool.and_eq_true _ _).mp hcond).1
      have hfree : closedFree (connFilter c s.genLog) := h.openNoClosed c sl hsl hopen
      refine ⟨?_, h.oneBatch, ?_, ?_, ?_, ?_, ?_, ?_, h.outDelivered, h.outConn, h.intrInv⟩
      · intro c2 sl3 h2
        simp only [slots_setSlot] at h2
        by_cases hc : c2 = c
        · subst hc
          exact h.domComplete c2 sl hsl
        · rw [if_neg hc] at h2
          exact h.domComplete c2 sl3 h2
      · intro c2 sl3 h2 e he
        simp only [slots_setSlot] at h2
        by_cases hc : c2 = c
        · subst hc
          rw [if_pos rfl] at h2
          cases h2
          rcases List.mem_append.mp he with h3 | h3
          · exact h.pendingConn c2 sl hsl e h3
          · rw [List.mem_singleton.mp h3]
            rfl
        · rw [if_neg hc] at h2
          exact h.pendingConn c2 sl3 h2 e he
      · intro c2 sl3 h2
        simp only [slots_setSlot] at h2
        by_cases hc : c2 = c
        · subst hc
          rw [if_pos rfl] at h2
          cases h2
          show connFilter c2 (s.genLog ++ [PnEvent.connectionWake c2]) =
            connFilter c2 s.delivered ++ (sl.pending ++ [PnEvent.connectionWake c2])
          rw [connFilter_append_own (connOf_wake c2), h.genPending c2 sl hsl, List.append_assoc]
        · rw [if_neg hc] at h2
          show connFilter c2 (s.genLog ++ [PnEvent.connectionWake c]) =
            connFilter c2 s.delivered ++ sl3.pending
          rw [connFilter_append_other (connOf_ne_of_ne (connOf_wake c) hc)]
          exact h.genPending c2 sl3 h2
      · intro c2
        by_cases hc : c2 = c
        · subst hc
          refine ⟨sl.pending ++ [PnEvent.connectionWake c2], ?_⟩
          show connFilter c2 (s.genLog ++ [PnEvent.connectionWake c2]) =
            connFilter c2 s.delivered ++ (sl.pending ++ [PnEvent.connectionWake c2])
          rw [connFilter_append_own (connOf_wake c2), h.genPending c2 sl hsl, List.append_assoc]
        · obtain ⟨rest, hrest⟩ := h.genPrefix c2
          refine ⟨rest, ?_⟩
          show connFilter c2 (s.genLog ++ [PnEvent.connectionWake c]) =
            connFilter c2 s.delivered ++ rest
          rw [connFilter_append_other (connOf_ne_of_ne (connOf_wake c) hc)]
          exact hrest
      · intro c2 sl3 h2 h3
        simp only [slots_setSlot] at h2
        by_cases hc : c2 = c
        · subst hc
          rw [if_pos rfl] at h2
          cases h2
          show closedFree (connFilter c2 (s.genLog ++ [PnEvent.connectionWake c2]))
          rw [connFilter_append_own (connOf_wake c2)]
          refine closedFree_append hfree ?_
          intro e he
          rw [List.mem_singleton.mp he]
          rfl
        · rw [if_neg hc] at h2
          show closedFree (connFilter c2 (s.genLog ++ [PnEvent.connectionWake c]))
          rw [connFilter_append_other (connOf_ne_of_ne (connOf_wake c) hc)]
          exact h.openNoClosed c2 sl3 h2 h3
      · intro c2 sl3 h2 h3
        simp only [slots_setSlot] at h2
        by_cases hc : c2 = c
        · subst hc
          rw [if_pos rfl] at h2
          cases h2
          rw [hopen] at h3
          cases h3
        · rw [if_neg hc] at h2
          obtain ⟨e, he, hcl⟩ := h.closedGen c2 sl3 h2 h3
          refine ⟨e, ?_, hcl⟩
          show e ∈ connFilter c2 (s.genLog ++ [PnEvent.connectionWake c])
          rw [connFilter_append_other (connOf_ne_of_ne (connOf_wake c) hc)]
          exact he
      · intro c2
        by_cases hc : c2 = c
        · subst hc
          show terminalOk (connFilter c2 (s.genLog ++ [PnEvent.connectionWake c2]))
          rw [connFilter_append_own (connOf_wake c2)]
          exact terminalOk_concat hfree _
        · show terminalOk (connFilter c2 (s.genLog ++ [PnEvent.connectionWake c]))
          rw [connFilter_append_other (connOf_ne_of_ne (connOf_wake c) hc)]
          exact h.termOk c2

theorem wf_connectF {s : PState} {c : Cid} {err : Option Nat} (h : WF s)
    (h1 : s.slots c = none) (h3 : connFilter c s.genLog = []) :
    WF (pn_proactor_connect s c err) := by
  have hdel : connFilter c s.delivered = [] := by
    obtain ⟨rest, hrest⟩ := h.genPrefix c
    rw [h3] at hrest
    exact (List.append_eq_nil.mp hrest.symm).1
  have hfree : closedFree (connFilter c s.genLog) := by
    rw [h3]
    exact closedFree_nil
  cases err with
  | none =>
    rw [connect_ok h1]
    refine ⟨?_, h.oneBatch, ?_, ?_, h.genPrefix, ?_, ?_, h.termOk, h.outDelivered,
      h.outConn, h.intrInv⟩
    · intro c2 sl3 h2
      dsimp only at h2 ⊢
      by_cases hc : c2 = c
      · subst hc
        exact List.mem_cons_self c2 s.dom
      · rw [if_neg hc] at h2
        exact List.mem_cons_of_mem _ (h.domComplete c2 sl3 h2)
    · intro c2 sl3 h2
      dsimp only at h2
      by_cases hc : c2 = c
      · subst hc
        rw [if_pos rfl] at h2
        cases h2
        intro e he
        cases he
      · rw [if_neg hc] at h2
        exact h.pendingConn c2 sl3 h2
    · intro c2 sl3 h2
      dsimp only at h2 ⊢
      by_cases hc : c2 = c
      · subst hc
        rw [if_pos rfl] at h2
        cases h2
        rw [h3, hdel]
        rfl
      · rw [if_neg hc] at h2
        exact h.genPending c2 sl3 h2
    · intro c2 sl3 h2
      dsimp only at h2 ⊢
      by_cases hc : c2 = c
      · subst hc
        intro _
        exact hfree
      · rw [if_neg hc] at h2
        exact h.openNoClosed c2 sl3 h2
    · intro c2 sl3 h2
      dsimp only at h2 ⊢
      by_cases hc : c2 = c
      · subst hc
        rw [if_pos rfl] at h2
        cases h2
        intro hop
        cases hop
      · rw [if_neg hc] at h2
        exact h.closedGen c2 sl3 h2
  | some e =>
    rw [connect_fail h1]
    have hco : (PnEvent.transportClosed c (some e)).connOf = some c := connOf_closed c (some e)
    refine ⟨?_, h.oneBatch, ?_, ?_, ?_, ?_, ?_, ?_, h.outDelivered, h.outConn, h.intrInv⟩
    · intro c2 sl3 h2
      dsimp only at h2 ⊢
      by_cases hc : c2 = c
      · subst hc
        exact List.mem_cons_self c2 s.dom
      · rw [if_neg hc] at h2
        exact List.mem_cons_of_mem _ (h.domComplete c2 sl3 h2)
    · intro c2 sl3 h2
      dsimp only at h2
      by_cases hc : c2 = c
      · subst hc
        rw [if_pos rfl] at h2
        cases h2
        intro ev hev
        rw [List.mem_singleton.mp hev]
        exact hco
      · rw [if_neg hc] at h2
        exact h.pendingConn c2 sl3 h2
    · intro c2 sl3 h2
      dsimp only at h2 ⊢
      by_cases hc : c2 = c
      · subst hc
        rw [if_pos rfl] at h2
        cases h2
        rw [connFilter_append_own hco, h3, hdel]
      · rw [if_neg hc] at h2
        rw [connFilter_append_other (connOf_ne_of_ne hco hc)]
        exact h.genPending c2 sl3 h2
    · intro c2
      dsimp only
      by_cases hc : c2 = c
      · subst hc
        refine ⟨[PnEvent.transportClosed c2 (some e)], ?_⟩
        rw [connFilter_append_own hco, h3, hdel]
      · obtain ⟨rest, hrest⟩ := h.genPrefix c2
        refine ⟨rest, ?_⟩
        rw [connFilter_append_other (connOf_ne_of_ne hco hc)]
        exact hrest
    · intro c2 sl3 h2
      dsimp only at h2 ⊢
      by_cases hc : c2 = c
      · subst hc
        rw [if_pos rfl] at h2
        cases h2
        intro hop
        cases hop
      · rw [if_neg hc] at h2
        intro hop
        rw [connFilter_append_other (connOf_ne_of_ne hco hc)]
        exact h.openNoClosed c2 sl3 h2 hop
    · intro c2 sl3 h2
      dsimp only at h2 ⊢
      by_cases hc : c2 = c
      · subst hc
        intro _
        refine ⟨PnEvent.transportClosed c2 (some e), ?_, rfl⟩
        rw [connFilter_append_own hco]
        exact List.mem_append_right _ (List.mem_singleton_self _)
      · rw [if_neg hc] at h2
        intro hop
        obtain ⟨ev, hev, hcl⟩ := h.closedGen c2 sl3 h2 hop
        refine ⟨ev, ?_, hcl⟩
        rw [connFilter_append_other (connOf_ne_of_ne hco hc)]
        exact hev
    · intro c2
      dsimp only
      by_cases hc : c2 = c
      · subst hc
        rw [connFilter_append_own hco]
        exact terminalOk_concat hfree _
      · rw [connFilter_append_other (connOf_ne_of_ne hco hc)]
        exact h.termOk c2

theorem wf_releaseF {s : PState} {c : Cid} (h : WF s) :
    WF (pn_proactor_release_connection s c) := by
  cases hsl : s.slots c with
  | none =>
    rw [release_none hsl]
    exact h
  | some sl =>
    rw [release_some hsl]
    refine ⟨?_, h.oneBatch, ?_, ?_, h.genPrefix, ?_, ?_, h.termOk, h.outDelivered,
      h.outConn, h.intrInv⟩
    · intro c2 sl3 h2
      simp only [eraseSlot] at h2 ⊢
      by_cases hc : c2 = c
      · rw [if_pos hc] at h2
        cases h2
      · rw [if_neg hc] at h2
        exact h.domComplete c2 sl3 h2
    · intro c2 sl3 h2
      simp only [eraseSlot] at h2
      by_cases hc : c2 = c
      · rw [if_pos hc] at h2
        cases h2
      · rw [if_neg hc] at h2
        exact h.pendingConn c2 sl3 h2
    · intro c2 sl3 h2
      simp only [eraseSlot] at h2 ⊢
      by_cases hc : c2 = c
      · rw [if_pos hc] at h2
        cases h2
      · rw [if_neg hc] at h2
        exact h.genPending c2 sl3 h2
    · intro c2 sl3 h2
      simp only [eraseSlot] at h2 ⊢
      by_cases hc : c2 = c
      · rw [if_pos hc] at h2
        cases h2
      · rw [if_neg hc] at h2
        exact h.openNoClosed c2 sl3 h2
    · intro c2 sl3 h2
      simp only [eraseSlot] at h2 ⊢
      by_cases hc : c2 = c
      · rw [if_pos hc] at h2
        cases h2
      · rw [if_neg hc] at h2
        exact h.closedGen c2 sl3 h2

theorem not_interrupt_of_connOf {e : PnEvent} {c : Cid} (h : e.connOf = some c) :
    (e == PnEvent.proactorInterrupt) = false := by
  cases e <;> simp_all [PnEvent.connOf]

theorem not_timeout_of_connOf {e : PnEvent} {c : Cid} (h : e.connOf = some c) :
    (e == PnEvent.proactorTimeout) = false := by
  cases e <;> simp_all [PnEvent.connOf]

theorem interruptCount_append (l r : List PnEvent) :
    interruptCount (l ++ r) = interruptCount l + interruptCount r := by
  simp [interruptCount, List.countP_append]

theorem timeoutCount_append (l r : List PnEvent) :
    timeoutCount (l ++ r) = timeoutCount l + timeoutCount r := by
  simp [timeoutCount, List.countP_append]

theorem interruptCount_conn {l : List PnEvent} {c : Cid} (hl : ∀ e ∈ l, e.connOf = some c) :
    interruptCount l = 0 := by
  apply List.countP_eq_zero.mpr
  intro e he
  simp [not_interrupt_of_connOf (hl e he)]

theorem timeoutCount_conn {l : List PnEvent} {c : Cid} (hl : ∀ e ∈ l, e.connOf = some c) :
    timeoutCount l = 0 := by
  apply List.countP_eq_zero.mpr
  intro e he
  simp [not_timeout_of_connOf (hl e he)]

theorem interruptCount_interrupt : interruptCount [PnEvent.proactorInterrupt] = 1 := by
  decide

theorem interruptCount_timeout : interruptCount [PnEvent.proactorTimeout] = 0 := by
  decide

theorem timeoutCount_timeout : timeoutCount [PnEvent.proactorTimeout] = 1 := by
  decide

theorem timeoutCount_interrupt : timeoutCount [PnEvent.proactorInterrupt] = 0 := by
  decide

theorem connOf_interrupt_ne (c : Cid) : PnEvent.proactorInterrupt.connOf ≠ some c := by
  simp [PnEvent.connOf]

theorem connOf_timeout_ne (c : Cid) : PnEvent.proactorTimeout.connOf ≠ some c := by
  simp [PnEvent.connOf]

theorem wf_genEventF {s : PState} {c : Cid} {sl : Slot} {tag : Nat} (h : WF s)
    (h1 : s.slots c = some sl) (h2o : sl.transportOpen = true) :
    WF (genEvent s c sl tag) := by
  have hfree : closedFree (connFilter c s.genLog) := h.openNoClosed c sl h1 h2o
  have hco : (PnEvent.connEvent c tag).connOf = some c := connOf_connEvent c tag
  refine ⟨?_, h.oneBatch, ?_, ?_, ?_, ?_, ?_, ?_, h.outDelivered, h.outConn, h.intrInv⟩
  · intro c2 sl3 h2
    simp only [genEvent, setSlot] at h2 ⊢
    by_cases hc : c2 = c
    · subst hc
      exact h.domComplete c2 sl h1
    · rw [if_neg hc] at h2
      exact h.domComplete c2 sl3 h2
  · intro c2 sl3 h2
    simp only [genEvent, setSlot] at h2
    by_cases hc : c2 = c
    · subst hc
      rw [if_pos rfl] at h2
      cases h2
      intro e he
      rcases List.mem_append.mp he with h4 | h4
      · exact h.pendingConn c2 sl h1 e h4
      · rw [List.mem_singleton.mp h4]
        exact hco
    · rw [if_neg hc] at h2
      exact h.pendingConn c2 sl3 h2
  · intro c2 sl3 h2
    simp only [genEvent, setSlot] at h2 ⊢
    by_cases hc : c2 = c
    · subst hc
      rw [if_pos rfl] at h2
      cases h2
      rw [connFilter_append_own hco, h.genPending c2 sl h1, List.append_assoc]
    · rw [if_neg hc] at h2
      rw [connFilter_append_other (connOf_ne_of_ne hco hc)]
      exact h.genPending c2 sl3 h2
  · intro c2
    simp only [genEvent, setSlot]
    by_cases hc : c2 = c
    · subst hc
      refine ⟨sl.pending ++ [PnEvent.connEvent c2 tag], ?_⟩
      rw [connFilter_append_own hco, h.genPending c2 sl h1, List.append_assoc]
    · obtain ⟨rest, hrest⟩ := h.genPrefix c2
      refine ⟨rest, ?_⟩
      rw [connFilter_append_other (connOf_ne_of_ne hco hc)]
      exact hrest
  · intro c2 sl3 h2 hop
    simp only [genEvent, setSlot] at h2 hop ⊢
    by_cases hc : c2 = c
    · subst hc
      rw [connFilter_append_own hco]
      refine closedFree_append hfree ?_
      intro e he
      rw [List.mem_singleton.mp he]
      rfl
    · rw [if_neg hc] at h2
      rw [connFilter_append_other (connOf_ne_of_ne hco hc)]
      exact h.openNoClosed c2 sl3 h2 hop
  · intro c2 sl3 h2 hop
    simp only [genEvent, setSlot] at h2 hop ⊢
    by_cases hc : c2 = c
    · subst hc
      rw [if_pos rfl] at h2
      cases h2
      dsimp only at hop
      rw [h2o] at hop
      cases hop
    · rw [if_neg hc] at h2
      obtain ⟨ev, hev, hcl⟩ := h.closedGen c2 sl3 h2 hop
      refine ⟨ev, ?_, hcl⟩
      rw [connFilter_append_other (connOf_ne_of_ne hco hc)]
      exact hev
  · intro c2
    simp only [genEvent, setSlot]
    by_cases hc : c2 = c
    · subst hc
      rw [connFilter_append_own hco]
      exact terminalOk_concat hfree _
    · rw [connFilter_append_other (connOf_ne_of_ne hco hc)]
      exact h.termOk c2

theorem wf_genCloseF {s : PState} {c : Cid} {sl : Slot} {cond : Option Nat} (h : WF s)
    (h1 : s.slots c = some sl) (h2o : sl.transportOpen = true) :
    WF (genClose s c sl cond) := by
  have hfree : closedFree (connFilter c s.genLog) := h.openNoClosed c sl h1 h2o
  have hco : (PnEvent.transportClosed c cond).connOf = some c := connOf_closed c cond
  refine ⟨?_, h.oneBatch, ?_, ?_, ?_, ?_, ?_, ?_, h.outDelivered, h.outConn, h.intrInv⟩
  · intro c2 sl3 h2
    simp only [genClose, setSlot] at h2 ⊢
    by_cases hc : c2 = c
    · subst hc
      exact h.domComplete c2 sl h1
    · rw [if_neg hc] at h2
      exact h.domComplete c2 sl3 h2
  · intro c2 sl3 h2
    simp only [genClose, setSlot] at h2
    by_cases hc : c2 = c
    · subst hc
      rw [if_pos rfl] at h2
      cases h2
      intro e he
      rcases List.mem_append.mp he with h4 | h4
      · exact h.pendingConn c2 sl h1 e h4
      · rw [List.mem_singleton.mp h4]
        exact hco
    · rw [if_neg hc] at h2
      exact h.pendingConn c2 sl3 h2
  · intro c2 sl3 h2
    simp only [genClose, setSlot] at h2 ⊢
    by_cases hc : c2 = c
    · subst hc
      rw [if_pos rfl] at h2
      cases h2
      rw [connFilter_append_own hco, h.genPending c2 sl h1, List.append_assoc]
    · rw [if_neg hc] at h2
      rw [connFilter_append_other (connOf_ne_of_ne hco hc)]
      exact h.genPending c2 sl3 h2
  · intro c2
    simp only [genClose, setSlot]
    by_cases hc : c2 = c
    · subst hc
      refine ⟨sl.pending ++ [PnEvent.transportClosed c2 cond], ?_⟩
      rw [connFilter_append_own hco, h.genPending c2 sl h1, List.append_assoc]
    · obtain ⟨rest, hrest⟩ := h.genPrefix c2
      refine ⟨rest, ?_⟩
      rw [connFilter_append_other (connOf_ne_of_ne hco hc)]
      exact hrest
  · intro c2 sl3 h2 hop
    simp only [genClose, setSlot] at h2 hop ⊢
    by_cases hc : c2 = c
    · subst hc
      rw [if_pos rfl] at h2
      cases h2
      dsimp only at hop
      cases hop
    · rw [if_neg hc] at h2
      rw [connFilter_append_other (connOf_ne_of_ne hco hc)]
      exact h.openNoClosed c2 sl3 h2 hop
  · intro c2 sl3 h2 hop
    simp only [genClose, setSlot] at h2 hop ⊢
    by_cases hc : c2 = c
    · subst hc
      refine ⟨PnEvent.transportClosed c2 cond, ?_, rfl⟩
      rw [connFilter_append_own hco]
      exact List.mem_append_right _ (List.mem_singleton_self _)
    · rw [if_neg hc] at h2
      obtain ⟨ev, hev, hcl⟩ := h.closedGen c2 sl3 h2 hop
      refine ⟨ev, ?_, hcl⟩
      rw [connFilter_append_other (connOf_ne_of_ne hco hc)]
      exact hev
  · intro c2
    simp only [genClose, setSlot]
    by_cases hc : c2 = c
    · subst hc
      rw [connFilter_append_own hco]
      exact terminalOk_concat hfree _
    · rw [connFilter_append_other (connOf_ne_of_ne hco hc)]
      exact h.termOk c2

theorem wf_deliverConnF {s : PState} {c : Cid} {sl : Slot} (h : WF s)
    (h1 : s.slots c = some sl) (h2 : busy s c = false) :
    WF (deliverConn s c sl) := by
  have hpc : ∀ e ∈ sl.pending, e.connOf = some c := h.pendingConn c sl h1
  have hself : connFilter c sl.pending = sl.pending := connFilter_all hpc
  refine ⟨?_, ?_, ?_, ?_, ?_, ?_, ?_, h.termOk, ?_, ?_, ?_⟩
  · intro c2 sl3 h3
    simp only [deliverConn, setSlot] at h3 ⊢
    by_cases hc : c2 = c
    · subst hc
      exact h.domComplete c2 sl h1
    · rw [if_neg hc] at h3
      exact h.domComplete c2 sl3 h3
  · intro c2
    simp only [deliverConn, setSlot]
    rw [List.countP_append]
    by_cases hc : c2 = c
    · subst hc
      rw [countP_conn_eq_zero h2]
      simp [List.countP_cons]
    · have hne : (Source.conn c == Source.conn c2) = false := by
        simp only [beq_eq_false_iff_ne, ne_eq, Source.conn.injEq]
        intro heq
        exact hc heq.symm
      have hone := h.oneBatch c2
      simp [List.countP_cons, hne]
      omega
  · intro c2 sl3 h3
    simp only [deliverConn, setSlot] at h3
    by_cases hc : c2 = c
    · subst hc
      rw [if_pos rfl] at h3
      cases h3
      intro e he
      cases he
    · rw [if_neg hc] at h3
      exact h.pendingConn c2 sl3 h3
  · intro c2 sl3 h3
    simp only [deliverConn, setSlot] at h3 ⊢
    by_cases hc : c2 = c
    · subst hc
      rw [if_pos rfl] at h3
      cases h3
      rw [List.append_nil, connFilter_append, hself]
      exact h.genPending c2 sl h1
    · rw [if_neg hc] at h3
      have hnil : connFilter c2 sl.pending = [] :=
        connFilter_nil_of (fun e he => connOf_ne_of_ne (hpc e he) hc)
      rw [connFilter_append, hnil, List.append_nil]
      exact h.genPending c2 sl3 h3
  · intro c2
    simp only [deliverConn, setSlot]
    by_cases hc : c2 = c
    · subst hc
      refine ⟨[], ?_⟩
      rw [List.append_nil, connFilter_append, hself]
      exact h.genPending c2 sl h1
    · obtain ⟨rest, hrest⟩ := h.genPrefix c2
      have hnil : connFilter c2 sl.pending = [] :=
        connFilter_nil_of (fun e he => connOf_ne_of_ne (hpc e he) hc)
      refine ⟨rest, ?_⟩
      rw [connFilter_append, hnil, List.append_nil]
      exact hrest
  · intro c2 sl3 h3 hop
    simp only [deliverConn, setSlot] at h3 hop ⊢
    by_cases hc : c2 = c
    · subst hc
      rw [if_pos rfl] at h3
      cases h3
      dsimp only at hop
      exact h.openNoClosed c2 sl h1 hop
    · rw [if_neg hc] at h3
      exact h.openNoClosed c2 sl3 h3 hop
  · intro c2 sl3 h3 hop
    simp only [deliverConn, setSlot] at h3 hop ⊢
    by_cases hc : c2 = c
    · subst hc
      rw [if_pos rfl] at h3
      cases h3
      dsimp only at hop
      exact h.closedGen c2 sl h1 hop
    · rw [if_neg hc] at h3
      exact h.closedGen c2 sl3 h3 hop
  · intro b2 hb2 e he
    simp only [deliverConn, setSlot] at hb2 ⊢
    rcases List.mem_append.mp hb2 with h4 | h4
    · exact List.mem_append_left _ (h.outDelivered b2 h4 e he)
    · rw [List.mem_singleton.mp h4] at he
      exact List.mem_append_right _ he
  · intro b2 hb2 c2 hsrc e he
    simp only [deliverConn, setSlot] at hb2
    rcases List.mem_append.mp hb2 with h4 | h4
    · exact h.outConn b2 h4 c2 hsrc e he
    · rw [List.mem_singleton.mp h4] at hsrc he
      have hcc : c = c2 := Source.conn.inj hsrc
      subst hcc
      exact hpc e he
  · show s.interrupts + interruptCount (s.delivered ++ sl.pending) = s.interruptCalls
    rw [interruptCount_append, interruptCount_conn hpc]
    have h5 := h.intrInv
    omega

theorem wf_deliverInterruptF {s : PState} (h : WF s) (hgt : 0 < s.interrupts) :
    WF (deliverInterrupt s) := by
  refine ⟨h.domComplete, ?_, h.pendingConn, ?_, ?_, h.openNoClosed, h.closedGen,
    h.termOk, ?_, ?_, ?_⟩
  · intro c2
    show (s.outstanding ++ [Batch.mk s.nextId Source.proactorGlobal [PnEvent.proactorInterrupt]]).countP (fun b2 => b2.src == Source.conn c2) ≤ 1
    rw [List.countP_append]
    have hone := h.oneBatch c2
    simp [List.countP_cons]
    omega
  · intro c2 sl3 h3
    show connFilter c2 s.genLog =
      connFilter c2 (s.delivered ++ [PnEvent.proactorInterrupt]) ++ sl3.pending
    rw [connFilter_append, connFilter_other (connOf_interrupt_ne c2), List.append_nil]
    exact h.genPending c2 sl3 h3
  · intro c2
    obtain ⟨rest, hrest⟩ := h.genPrefix c2
    refine ⟨rest, ?_⟩
    show connFilter c2 s.genLog =
      connFilter c2 (s.delivered ++ [PnEvent.proactorInterrupt]) ++ rest
    rw [connFilter_append, connFilter_other (connOf_interrupt_ne c2), List.append_nil]
    exact hrest
  · intro b2 hb2 e he
    show e ∈ s.delivered ++ [PnEvent.proactorInterrupt]
    rcases List.mem_append.mp hb2 with h4 | h4
    · exact List.mem_append_left _ (h.outDelivered b2 h4 e he)
    · rw [List.mem_singleton.mp h4] at he
      exact List.mem_append_right _ he
  · intro b2 hb2 c2 hsrc e he
    rcases List.mem_append.mp hb2 with h4 | h4
    · exact h.outConn b2 h4 c2 hsrc e he
    · rw [List.mem_singleton.mp h4] at hsrc
      cases hsrc
  · show s.interrupts - 1 + interruptCount (s.delivered ++ [PnEvent.proactorInterrupt]) =
      s.interruptCalls
    rw [interruptCount_append, interruptCount_interrupt]
    have h5 := h.intrInv
    omega

theorem wf_deliverTimeoutF {s : PState} (h : WF s) : WF (deliverTimeout s) := by
  refine ⟨h.domComplete, ?_, h.pendingConn, ?_, ?_, h.openNoClosed, h.closedGen,
    h.termOk, ?_, ?_, ?_⟩
  · intro c2
    show (s.outstanding ++ [Batch.mk s.nextId Source.proactorGlobal [PnEvent.proactorTimeout]]).countP (fun b2 => b2.src == Source.conn c2) ≤ 1
    rw [List.countP_append]
    have hone := h.oneBatch c2
    simp [List.countP_cons]
    omega
  · intro c2 sl3 h3
    show connFilter c2 s.genLog =
      connFilter c2 (s.delivered ++ [PnEvent.proactorTimeout]) ++ sl3.pending
    rw [connFilter_append, connFilter_other (connOf_timeout_ne c2), List.append_nil]
    exact h.genPending c2 sl3 h3
  · intro c2
    obtain ⟨rest, hrest⟩ := h.genPrefix c2
    refine ⟨rest, ?_⟩
    show connFilter c2 s.genLog =
      connFilter c2 (s.delivered ++ [PnEvent.proactorTimeout]) ++ rest
    rw [connFilter_append, connFilter_other (connOf_timeout_ne c2), List.append_nil]
    exact hrest
  · intro b2 hb2 e he
    show e ∈ s.delivered ++ [PnEvent.proactorTimeout]
    rcases List.mem_append.mp hb2 with h4 | h4
    · exact List.mem_append_left _ (h.outDelivered b2 h4 e he)
    · rw [List.mem_singleton.mp h4] at he
      exact List.mem_append_right _ he
  · intro b2 hb2 c2 hsrc e he
    rcases List.mem_append.mp hb2 with h4 | h4
    · exact h.outConn b2 h4 c2 hsrc e he
    · rw [List.mem_singleton.mp h4] at hsrc
      cases hsrc
  · show s.interrupts + interruptCount (s.delivered ++ [PnEvent.proactorTimeout]) =
      s.interruptCalls
    rw [interruptCount_append, interruptCount_timeout]
    have h5 := h.intrInv
    omega

theorem wf_doneF {s : PState} {b : Batch} (h : WF s) (_hb : b ∈ s.outstanding) :
    WF (pn_proactor_done s b) := by
  have honeB : ∀ c2, (s.outstanding.erase b).countP (fun b2 => b2.src == Source.conn c2) ≤ 1 :=
    fun c2 => le_trans ((List.erase_sublist b s.outstanding).countP_le _) (h.oneBatch c2)
  have houtDel : ∀ b2 ∈ s.outstanding.erase b, ∀ e ∈ b2.events, e ∈ s.delivered :=
    fun b2 hb2 => h.outDelivered b2 (List.mem_of_mem_erase hb2)
  have houtConn : ∀ b2 ∈ s.outstanding.erase b, ∀ c2, b2.src = Source.conn c2 →
      ∀ e ∈ b2.events, e.connOf = some c2 :=
    fun b2 hb2 => h.outConn b2 (List.mem_of_mem_erase hb2)
  cases hsrc : b.src with
  | proactorGlobal =>
    rw [done_global hsrc]
    exact ⟨h.domComplete, honeB, h.pendingConn, h.genPending, h.genPrefix, h.openNoClosed,
      h.closedGen, h.termOk, houtDel, houtConn, h.intrInv⟩
  | conn c =>
    cases hcl : b.events.any PnEvent.isClosed with
    | false =>
      rw [done_conn_live hsrc hcl]
      exact ⟨h.domComplete, honeB, h.pendingConn, h.genPending, h.genPrefix, h.openNoClosed,
        h.closedGen, h.termOk, houtDel, houtConn, h.intrInv⟩
    | true =>
      rw [done_conn_terminal hsrc hcl]
      refine ⟨?_, honeB, ?_, ?_, h.genPrefix, ?_, ?_, h.termOk, houtDel, houtConn, h.intrInv⟩
      · intro c2 sl3 h2
        simp only [eraseSlot] at h2 ⊢
        by_cases hc : c2 = c
        · rw [if_pos hc] at h2
          cases h2
        · rw [if_neg hc] at h2
          exact h.domComplete c2 sl3 h2
      · intro c2 sl3 h2
        simp only [eraseSlot] at h2
        by_cases hc : c2 = c
        · rw [if_pos hc] at h2
          cases h2
        · rw [if_neg hc] at h2
          exact h.pendingConn c2 sl3 h2
      · intro c2 sl3 h2
        simp only [eraseSlot] at h2 ⊢
        by_cases hc : c2 = c
        · rw [if_pos hc] at h2
          cases h2
        · rw [if_neg hc] at h2
          exact h.genPending c2 sl3 h2
      · intro c2 sl3 h2
        simp only [eraseSlot] at h2 ⊢
        by_cases hc : c2 = c
        · rw [if_pos hc] at h2
          cases h2
        · rw [if_neg hc] at h2
          exact h.openNoClosed c2 sl3 h2
      · intro c2 sl3 h2
        simp only [eraseSlot] at h2 ⊢
        by_cases hc : c2 = c
        · rw [if_pos hc] at h2
          cases h2
        · rw [if_neg hc] at h2
          exact h.closedGen c2 sl3 h2

/-- Every step of the proactor preserves the well-formedness invariant. -/
theorem wf_step {s : PState} {a : Act} {s2 : PState} (h : WF s) (hs : Step s a s2) :
    WF s2 := by
  cases hs with
  | connect h1 h2 h3 => exact wf_connectF h h1 h3
  | wake => exact wf_wakeF h
  | interrupt => exact wf_interruptF h
  | setTimeout => exact wf_setTimeoutF h
  | cancelTimeout => exact wf_cancelTimeoutF h
  | release => exact wf_releaseF h
  | deliver_conn h1 h2 h3 => exact wf_deliverConnF h h1 h2
  | deliver_interrupt hgt => exact wf_deliverInterruptF h hgt
  | deliver_timeout h1 h2 => exact wf_deliverTimeoutF h
  | done hb => exact wf_doneF h hb
  | gen_event h1 h2 => exact wf_genEventF h h1 h2
  | gen_close h1 h2 => exact wf_genCloseF h h1 h2
  | tick => exact wf_tickF h

/-- Every reachable proactor state is well formed. -/
theorem reach_wf {s : PState} (h : Reach s) : WF s := by
  induction h with
  | init => exact wf_init
  | step _ hs ih => exact wf_step ih hs

theorem wf_exec {s : PState} {tr : List Act} {s2 : PState} (h : WF s)
    (he : Exec s tr s2) : WF s2 := by
  induction he with
  | nil => exact h
  | cons hs _ ih => exact ih (wf_step h hs)

/-! ### Projection facts for the match-based operations -/

theorem connect_proj (s : PState) (c : Cid) (err : Option Nat) :
    (pn_proactor_connect s c err).timer = s.timer ∧
    (pn_proactor_connect s c err).delivered = s.delivered ∧
    (pn_proactor_connect s c err).clock = s.clock := by
  unfold pn_proactor_connect
  split
  · exact ⟨rfl, rfl, rfl⟩
  · split <;> exact ⟨rfl, rfl, rfl⟩

theorem wake_proj (s : PState) (c : Cid) :
    (pn_connection_wake s c).timer = s.timer ∧
    (pn_connection_wake s c).delivered = s.delivered ∧
    (pn_connection_wake s c).clock = s.clock := by
  unfold pn_connection_wake
  split
  · exact ⟨rfl, rfl, rfl⟩
  · split <;> exact ⟨rfl, rfl, rfl⟩

theorem release_proj (s : PState) (c : Cid) :
    (pn_proactor_release_connection s c).timer = s.timer ∧
    (pn_proactor_release_connection s c).delivered = s.delivered ∧
    (pn_proactor_release_connection s c).clock = s.clock := by
  unfold pn_proactor_release_connection
  split <;> exact ⟨rfl, rfl, rfl⟩

theorem done_proj (s : PState) (b : Batch) :
    (pn_proactor_done s b).timer = s.timer ∧
    (pn_proactor_done s b).delivered = s.delivered ∧
    (pn_proactor_done s b).clock = s.clock := by
  unfold pn_proactor_done
  split
  · split <;> exact ⟨rfl, rfl, rfl⟩
  · exact ⟨rfl, rfl, rfl⟩

/-- The clock never decreases across a step: `pn_proactor_now` readings are
monotone. -/
theorem step_clock {s : PState} {a : Act} {s2 : PState} (hs : Step s a s2) :
    s.clock ≤ s2.clock := by
  cases hs with
  | connect h1 h2 h3 =>
    rw [(connect_proj _ _ _).2.2]
  | wake =>
    rw [(wake_proj _ _).2.2]
  | release =>
    rw [(release_proj _ _).2.2]
  | done hb =>
    rw [(done_proj _ _).2.2]
  | tick => exact Nat.le_add_right _ _
  | interrupt => exact Nat.le_refl _
  | setTimeout => exact Nat.le_refl _
  | cancelTimeout => exact Nat.le_refl _
  | deliver_conn h1 h2 h3 => exact Nat.le_refl _
  | deliver_interrupt h => exact Nat.le_refl _
  | deliver_timeout h1 h2 => exact Nat.le_refl _
  | gen_event h1 h2 => exact Nat.le_refl _
  | gen_close h1 h2 => exact Nat.le_refl _

theorem exec_clock {s : PState} {tr : List Act} {s2 : PState} (he : Exec s tr s2) :
    s.clock ≤ s2.clock := by
  induction he with
  | nil => exact Nat.le_refl _
  | cons hs _ ih => exact le_trans (step_clock hs) ih

/-! ### Inversion facts about delivery steps -/

theorem deliver_nonempty {s : PState} {b : Batch} {s2 : PState}
    (hs : Step s (Act.deliver b) s2) : b.events ≠ [] := by
  cases hs with
  | deliver_conn h1 h2 h3 => exact h3
  | deliver_interrupt h => simp
  | deliver_timeout h1 h2 => simp

theorem deliver_not_busy {s : PState} {b : Batch} {s2 : PState} {c : Cid}
    (hs : Step s (Act.deliver b) s2) (hsrc : b.src = Source.conn c) :
    busy s c = false := by
  cases hs with
  | deliver_conn h1 h2 h3 =>
    cases Source.conn.inj hsrc
    exact h2
  | deliver_interrupt h => cases hsrc
  | deliver_timeout h1 h2 => cases hsrc

theorem deliver_enabled_iff {s : PState} :
    (∃ b s2, Step s (Act.deliver b) s2) ↔ ready s := by
  constructor
  · rintro ⟨b, s2, hs⟩
    cases hs with
    | deliver_conn h1 h2 h3 => exact Or.inr (Or.inr ⟨_, _, h1, h2, h3⟩)
    | deliver_interrupt h => exact Or.inl h
    | deliver_timeout h1 h2 =>
      refine Or.inr (Or.inl ?_)
      simp [timerReady, h1]
      exact h2
  · rintro (h | h | ⟨c, sl, h1, h2, h3⟩)
    · exact ⟨_, _, Step.deliver_interrupt h⟩
    · cases ht : s.timer with
      | none => simp [timerReady, ht] at h
      | some d =>
        simp [timerReady, ht] at h
        exact ⟨_, _, Step.deliver_timeout ht h⟩
    · exact ⟨_, _, Step.deliver_conn h1 h2 h3⟩

theorem deliver_wake_not_busy {s : PState} {b : Batch} {s2 : PState} {c : Cid}
    (hw : WF s) (hs : Step s (Act.deliver b) s2)
    (hmem : PnEvent.connectionWake c ∈ b.events) : busy s c = false := by
  cases hs with
  | deliver_conn h1 h2 h3 =>
    have h4 := hw.pendingConn _ _ h1 _ hmem
    rw [connOf_wake] at h4
    cases Option.some.inj h4
    exact h2
  | deliver_interrupt h => simp at hmem
  | deliver_timeout h1 h2 => simp at hmem

/-! ### Draining a pending event to delivery -/

/-- Any event sitting in the pending stream of a connection whose delivered
stream is not yet terminated can be brought to delivery in at most two steps:
a `done` of the outstanding batch if one exists, then the delivery of the
connection's batch. -/
theorem drain {s : PState} {c : Cid} {sl : Slot} {ev : PnEvent} (hw : WF s)
    (hsl : s.slots c = some sl) (hev : ev ∈ sl.pending)
    (hnc : closedFree (connFilter c s.delivered)) :
    ∃ tr s2, Exec s tr s2 ∧ ev ∈ s2.delivered := by
  have hne : sl.pending ≠ [] := by
    intro h0
    rw [h0] at hev
    cases hev
  cases hb : busy s c with
  | false =>
    refine ⟨[Act.deliver ⟨s.nextId, Source.conn c, sl.pending⟩], deliverConn s c sl,
      Exec.cons (Step.deliver_conn hsl hb hne) Exec.nil, ?_⟩
    show ev ∈ s.delivered ++ sl.pending
    exact List.mem_append_right _ hev
  | true =>
    obtain ⟨b, hbmem, hbsrc⟩ := busy_true_iff.mp hb
    have hbfree : b.events.any PnEvent.isClosed = false := by
      apply List.any_eq_false.mpr
      intro e heb
      have hdel : e ∈ s.delivered := hw.outDelivered b hbmem e heb
      have hconn : e.connOf = some c := hw.outConn b hbmem c hbsrc e heb
      have hmem2 : e ∈ connFilter c s.delivered := mem_connFilter.mpr ⟨hdel, hconn⟩
      simp [hnc e hmem2]
    have hstep1 : Step s (Act.done b) (pn_proactor_done s b) := Step.done hbmem
    have hs1eq : pn_proactor_done s b = { s with outstanding := s.outstanding.erase b } :=
      done_conn_live hbsrc hbfree
    have hsl1 : (pn_proactor_done s b).slots c = some sl := by
      rw [hs1eq]
      exact hsl
    have hb1 : busy (pn_proactor_done s b) c = false := by
      rw [hs1eq]
      show (s.outstanding.erase b).any (fun b2 => b2.src == Source.conn c) = false
      have hcnt := countP_erase_of_mem (p := fun b2 => b2.src == Source.conn c)
        hbmem (by simp [hbsrc])
      have hone := hw.oneBatch c
      have hzero : (s.outstanding.erase b).countP (fun b2 => b2.src == Source.conn c) = 0 := by
        omega
      apply List.any_eq_false.mpr
      intro b2 hb2
      have h6 := List.countP_eq_zero.mp hzero b2 hb2
      simpa using h6
    refine ⟨[Act.done b,
      Act.deliver ⟨(pn_proactor_done s b).nextId, Source.conn c, sl.pending⟩],
      deliverConn (pn_proactor_done s b) c sl,
      Exec.cons hstep1 (Exec.cons (Step.deliver_conn hsl1 hb1 hne) Exec.nil), ?_⟩
    show ev ∈ (pn_proactor_done s b).delivered ++ sl.pending
    exact List.mem_append_right _ hev

/-! ### Draining the interrupt counter -/

theorem interrupt_drain : ∀ (n : Nat) (s : PState), s.interrupts = n →
    ∃ tr s2, Exec s tr s2 ∧ s2.interrupts = 0 ∧
      interruptCount s2.delivered = interruptCount s.delivered + n := by
  intro n
  induction n with
  | zero =>
    intro s h
    exact ⟨[], s, Exec.nil, h, by omega⟩
  | succ k ih =>
    intro s h
    have hgt : 0 < s.interrupts := by omega
    obtain ⟨tr, s2, hexec, h0, hcount⟩ := ih (deliverInterrupt s) (by
      show s.interrupts - 1 = k
      omega)
    refine ⟨Act.deliver ⟨s.nextId, Source.proactorGlobal, [PnEvent.proactorInterrupt]⟩ :: tr,
      s2, Exec.cons (Step.deliver_interrupt hgt) hexec, h0, ?_⟩
    rw [hcount]
    show interruptCount (s.delivered ++ [PnEvent.proactorInterrupt]) + k
      = interruptCount s.delivered + (k + 1)
    rw [interruptCount_append, interruptCount_interrupt]
    omega

/-! ### Timer trace lemmas -/

/-- Whether an action re-arms or cancels the timer. -/
def timerAct : Act → Bool
  | Act.setTimeout _ => true
  | Act.cancelTimeout => true
  | _ => false

theorem step_timer_count {s : PState} {a : Act} {s2 : PState} (hw : WF s)
    (hs : Step s a s2) (hna : timerAct a = false) :
    (s2.timer = s.timer ∧ timeoutCount s2.delivered = timeoutCount s.delivered) ∨
    (∃ d, s.timer = some d ∧ d ≤ s.clock ∧ s2.timer = none ∧
      timeoutCount s2.delivered = timeoutCount s.delivered + 1) := by
  cases hs with
  | connect h1 h2 h3 =>
    exact Or.inl ⟨(connect_proj _ _ _).1, by rw [(connect_proj _ _ _).2.1]⟩
  | wake =>
    exact Or.inl ⟨(wake_proj _ _).1, by rw [(wake_proj _ _).2.1]⟩
  | interrupt => exact Or.inl ⟨rfl, rfl⟩
  | setTimeout => simp [timerAct] at hna
  | cancelTimeout => simp [timerAct] at hna
  | release =>
    exact Or.inl ⟨(release_proj _ _).1, by rw [(release_proj _ _).2.1]⟩
  | deliver_conn h1 h2 h3 =>
    refine Or.inl ⟨rfl, ?_⟩
    show timeoutCount (s.delivered ++ _) = timeoutCount s.delivered
    rw [timeoutCount_append, timeoutCount_conn (hw.pendingConn _ _ h1)]
    omega
  | deliver_interrupt h =>
    refine Or.inl ⟨rfl, ?_⟩
    show timeoutCount (s.delivered ++ [PnEvent.proactorInterrupt]) = timeoutCount s.delivered
    rw [timeoutCount_append, timeoutCount_interrupt]
    omega
  | deliver_timeout h1 h2 =>
    refine Or.inr ⟨_, h1, h2, rfl, ?_⟩
    show timeoutCount (s.delivered ++ [PnEvent.proactorTimeout]) = timeoutCount s.delivered + 1
    rw [timeoutCount_append, timeoutCount_timeout]
  | done hb =>
    exact Or.inl ⟨(done_proj _ _).1, by rw [(done_proj _ _).2.1]⟩
  | gen_event h1 h2 => exact Or.inl ⟨rfl, rfl⟩
  | gen_close h1 h2 => exact Or.inl ⟨rfl, rfl⟩
  | tick => exact Or.inl ⟨rfl, rfl⟩

/-- Along an execution with no set/cancel of the timer, the number of
delivered timeout events plus the still-armed deadline never grows: at most
one timeout fires per arming. -/
theorem exec_timeout_bound {s : PState} {tr : List Act} {s2 : PState} (hw : WF s)
    (he : Exec s tr s2) (hna : ∀ a ∈ tr, timerAct a = false) :
    timeoutCount s2.delivered + (if s2.timer.isSome then 1 else 0) ≤
      timeoutCount s.delivered + (if s.timer.isSome then 1 else 0) := by
  induction he with
  | nil => exact Nat.le_refl _
  | @cons st a st2 tr2 st3 hs hrest ih =>
    have h4 := ih (wf_step hw hs) (fun a2 ha2 => hna a2 (List.mem_cons_of_mem _ ha2))
    rcases step_timer_count hw hs (hna a (List.mem_cons_self _ _)) with
      ⟨hteq, hceq⟩ | ⟨d, hd, hle, ht2, hc2⟩
    · rw [hteq, hceq] at h4
      exact h4
    · rw [ht2, hc2] at h4
      simp at h4
      rw [hd]
      simp
      omega

theorem exec_fire_time {s : PState} {tr : List Act} {s2 : PState} {d : Nat} (hw : WF s)
    (he : Exec s tr s2) (hna : ∀ a ∈ tr, timerAct a = false) (ht : s.timer = some d)
    (hcnt : timeoutCount s.delivered < timeoutCount s2.delivered) : d ≤ s2.clock := by
  induction he with
  | nil => omega
  | @cons st a st2 tr2 st3 hs hrest ih =>
    rcases step_timer_count hw hs (hna a (List.mem_cons_self _ _)) with
      ⟨hteq, hceq⟩ | ⟨d2, hd2, hle, ht2, hc2⟩
    · refine ih (wf_step hw hs) (fun a2 ha2 => hna a2 (List.mem_cons_of_mem _ ha2))
        (by rw [hteq, ht]) ?_
      omega
    · rw [ht] at hd2
      cases Option.some.inj hd2
      calc d ≤ st.clock := hle
        _ ≤ st2.clock := step_clock hs
        _ ≤ st3.clock := exec_clock hrest

theorem exec_append {s1 : PState} {tr1 : List Act} {s2 : PState} {tr2 : List Act}
    {s3 : PState} (h1 : Exec s1 tr1 s2) (h2 : Exec s2 tr2 s3) :
    Exec s1 (tr1 ++ tr2) s3 := by
  induction h1 with
  | nil => exact h2
  | cons hs _ ih => exact Exec.cons hs (ih h2)

/-! ### The non-blocking get as a refinement of delivery -/

theorem findReadyConn_some {s : PState} {l : List Cid} {c : Cid} {sl : Slot}
    (h : findReadyConn s l = some (c, sl)) :
    s.slots c = some sl ∧ busy s c = false ∧ sl.pending ≠ [] := by
  induction l with
  | nil => cases h
  | cons c2 rest ih =>
    unfold findReadyConn at h
    cases hsl : s.slots c2 with
    | none =>
      rw [hsl] at h
      dsimp only at h
      exact ih h
    | some sl2 =>
      rw [hsl] at h
      dsimp only at h
      by_cases hcond : sl2.pending ≠ [] ∧ busy s c2 = false
      · rw [if_pos hcond] at h
        injection h with h4
        cases h4
        exact ⟨hsl, hcond.2, hcond.1⟩
      · rw [if_neg hcond] at h
        exact ih h

theorem findReadyConn_none {s : PState} {l : List Cid} (h : findReadyConn s l = none) :
    ∀ c ∈ l, ∀ sl, s.slots c = some sl → sl.pending = [] ∨ busy s c = true := by
  induction l with
  | nil =>
    intro c hc
    cases hc
  | cons c2 rest ih =>
    intro c hc sl hsl
    unfold findReadyConn at h
    cases hsl2 : s.slots c2 with
    | none =>
      rw [hsl2] at h
      dsimp only at h
      rcases List.mem_cons.mp hc with rfl | hc2
      · rw [hsl2] at hsl
        cases hsl
      · exact ih h c hc2 sl hsl
    | some sl2 =>
      rw [hsl2] at h
      dsimp only at h
      by_cases hcond : sl2.pending ≠ [] ∧ busy s c2 = false
      · rw [if_pos hcond] at h
        cases h
      · rw [if_neg hcond] at h
        rcases List.mem_cons.mp hc with rfl | hc2
        · rw [hsl2] at hsl
          cases hsl
          by_cases hp : sl.pending = []
          · exact Or.inl hp
          · cases hbusy : busy s c with
            | true => exact Or.inr rfl
            | false => exact absurd ⟨hp, hbusy⟩ hcond
        · exact ih h c hc2 sl hsl

theorem get_none_iff {s : PState} (hw : WF s) :
    pn_proactor_get s = none ↔ ¬ ready s := by
  unfold pn_proactor_get
  constructor
  · intro h
    by_cases hi : 0 < s.interrupts
    · rw [if_pos hi] at h
      cases h
    · rw [if_neg hi] at h
      by_cases ht : timerReady s
      · rw [if_pos ht] at h
        cases h
      · rw [if_neg ht] at h
        cases hf : findReadyConn s s.dom with
        | some p =>
          rw [hf] at h
          obtain ⟨c, sl⟩ := p
          cases h
        | none =>
          rintro (h5 | h5 | ⟨c, sl, h5, h6, h7⟩)
          · exact hi h5
          · exact ht h5
          · rcases findReadyConn_none hf c (hw.domComplete c sl h5) sl h5 with h8 | h8
            · exact h7 h8
            · rw [h6] at h8
              cases h8
  · intro h
    rw [if_neg (fun hi => h (Or.inl hi)), if_neg (fun ht => h (Or.inr (Or.inl ht)))]
    cases hf : findReadyConn s s.dom with
    | none => rfl
    | some p =>
      obtain ⟨c, sl⟩ := p
      obtain ⟨h5, h6, h7⟩ := findReadyConn_some hf
      exact absurd (Or.inr (Or.inr ⟨c, sl, h5, h6, h7⟩)) h

theorem get_some_step {s : PState} {b : Batch} {s2 : PState}
    (h : pn_proactor_get s = some (b, s2)) : Step s (Act.deliver b) s2 := by
  unfold pn_proactor_get at h
  by_cases hi : 0 < s.interrupts
  · rw [if_pos hi] at h
    injection h with h4
    injection h4 with h5 h6
    subst h5
    subst h6
    exact Step.deliver_interrupt hi
  · rw [if_neg hi] at h
    by_cases ht : timerReady s
    · rw [if_pos ht] at h
      injection h with h4
      injection h4 with h5 h6
      subst h5
      subst h6
      cases htt : s.timer with
      | none => simp [timerReady, htt] at ht
      | some d =>
        simp [timerReady, htt] at ht
        exact Step.deliver_timeout htt ht
    · rw [if_neg ht] at h
      cases hf : findReadyConn s s.dom with
      | none =>
        rw [hf] at h
        cases h
      | some p =>
        obtain ⟨c, sl⟩ := p
        rw [hf] at h
        injection h with h4
        injection h4 with h5 h6
        subst h5
        subst h6
        obtain ⟨h5, h6, h7⟩ := findReadyConn_some hf
        exact Step.deliver_conn h5 h6 h7

/-! ### The claims -/

/-- C1: at most one thread holds an outstanding Event Batch per connection
slot at any time.  In every reachable state, at most one batch per connection
is outstanding, a deliver step (a wait/get return) is never satisfied with a
batch for a connection whose previous batch has not been done, and the
events delivered for a connection are a prefix of the events generated for
it, in generation order. -/
theorem c1_serialized {s : PState} (hr : Reach s) :
    (∀ c, s.outstanding.countP (fun b => b.src == Source.conn c) ≤ 1) ∧
    (∀ c b s2, busy s c = true → Step s (Act.deliver b) s2 → b.src ≠ Source.conn c) ∧
    (∀ c, ∃ rest, connFilter c s.genLog = connFilter c s.delivered ++ rest) := by
  have hw := reach_wf hr
  refine ⟨hw.oneBatch, ?_, hw.genPrefix⟩
  intro c b s2 hbusy hs hsrc
  rw [deliver_not_busy hs hsrc] at hbusy
  cases hbusy

theorem c1_serialized_witness :
    initState.outstanding.countP (fun b => b.src == Source.conn 0) ≤ 1 :=
  (c1_serialized Reach.init).1 0

/-- C2: every bound connection eventually produces exactly one terminal
transport-closed event, and no event for that connection ever follows it.
In every reachable state the delivered stream of each connection contains at
most one transport-closed event with nothing after it (and this holds in all
later reachable states, so nothing ever follows it), and from any reachable
state a bound connection has an execution that delivers its transport-closed
event. -/
theorem c2_terminal {s : PState} (hr : Reach s) :
    (∀ c, terminalOk (connFilter c s.delivered) ∧
      (connFilter c s.delivered).countP (fun e => e.isClosed) ≤ 1) ∧
    (∀ c sl, s.slots c = some sl →
      ∃ tr s2, Exec s tr s2 ∧ ∃ e ∈ connFilter c s2.delivered, e.isClosed = true) := by
  have hw := reach_wf hr
  constructor
  · intro c
    obtain ⟨rest, hrest⟩ := hw.genPrefix c
    have htok : terminalOk (connFilter c s.delivered) := by
      have h4 := hw.termOk c
      rw [hrest] at h4
      exact terminalOk_of_append_left h4
    exact ⟨htok, terminalOk_count htok⟩
  · intro c sl hsl
    by_cases hdel : ∃ e ∈ connFilter c s.delivered, e.isClosed = true
    · exact ⟨[], s, Exec.nil, hdel⟩
    · have hnc : closedFree (connFilter c s.delivered) := by
        intro e he
        by_contra h0
        exact hdel ⟨e, he, by revert h0; cases e.isClosed <;> simp⟩
      cases hop : sl.transportOpen with
      | true =>
        have hstep : Step s (Act.genClose c none) (genClose s c sl none) :=
          Step.gen_close hsl hop
        have hw2 : WF (genClose s c sl none) := wf_genCloseF hw hsl hop
        have hsl2 : (genClose s c sl none).slots c =
            some (Slot.mk sl.wakePending
              (sl.pending ++ [PnEvent.transportClosed c none]) false) := by
          simp [genClose, setSlot]
        have hev2 : PnEvent.transportClosed c none ∈
            (Slot.mk sl.wakePending
              (sl.pending ++ [PnEvent.transportClosed c none]) false).pending :=
          List.mem_append_right _ (List.mem_singleton_self _)
        obtain ⟨tr2, s3, hexec2, hmem⟩ := drain hw2 hsl2 hev2 hnc
        refine ⟨Act.genClose c none :: tr2, s3, Exec.cons hstep hexec2,
          PnEvent.transportClosed c none, ?_, rfl⟩
        exact mem_connFilter.mpr ⟨hmem, connOf_closed c none⟩
      | false =>
        obtain ⟨e, he, hcl⟩ := hw.closedGen c sl hsl hop
        rw [hw.genPending c sl hsl] at he
        rcases List.mem_append.mp he with h5 | h5
        · exact absurd ⟨e, h5, hcl⟩ hdel
        · obtain ⟨tr2, s3, hexec2, hmem⟩ := drain hw hsl h5 hnc
          refine ⟨tr2, s3, hexec2, e, ?_, hcl⟩
          exact mem_connFilter.mpr ⟨hmem, hw.pendingConn c sl hsl e h5⟩

theorem c2_terminal_witness :
    ∃ tr s2, Exec (pn_proactor_connect initState 0 none) tr s2 ∧
      ∃ e ∈ connFilter 0 s2.delivered, e.isClosed = true :=
  (c2_terminal (Reach.step Reach.init (Step.connect rfl rfl rfl))).2 0
    ⟨false, [], true⟩ rfl

/-- C3: connect never fails observably.  For a fresh connection,
`pn_proactor_connect` is a total state transformer (it returns a state, not
an error); on a resolution/connect failure it synthesizes a terminal
transport-closed event carrying the condition into the connection's ordinary
event stream, from which a wait/get delivery step surfaces it. -/
theorem c3_connect_no_fail {s : PState} {c : Cid} {e : Nat}
    (h1 : s.slots c = none) (h2 : busy s c = false)
    (h3 : connFilter c s.genLog = []) :
    Step s (Act.connect c (some e)) (pn_proactor_connect s c (some e)) ∧
    (pn_proactor_connect s c (some e)).slots c =
      some ⟨false, [PnEvent.transportClosed c (some e)], false⟩ ∧
    ∃ s2, Step (pn_proactor_connect s c (some e))
        (Act.deliver ⟨(pn_proactor_connect s c (some e)).nextId, Source.conn c,
          [PnEvent.transportClosed c (some e)]⟩) s2 ∧
      PnEvent.transportClosed c (some e) ∈ s2.delivered := by
  have hslots : (pn_proactor_connect s c (some e)).slots c =
      some ⟨false, [PnEvent.transportClosed c (some e)], false⟩ := by
    rw [connect_fail h1]
    dsimp only
    rw [if_pos rfl]
  have hbusy2 : busy (pn_proactor_connect s c (some e)) c = false := by
    rw [connect_fail h1]
    exact h2
  refine ⟨Step.connect h1 h2 h3, hslots, deliverConn (pn_proactor_connect s c (some e)) c _,
    Step.deliver_conn hslots hbusy2 (by simp), ?_⟩
  show PnEvent.transportClosed c (some e) ∈
    (pn_proactor_connect s c (some e)).delivered ++ [PnEvent.transportClosed c (some e)]
  exact List.mem_append_right _ (List.mem_singleton_self _)

theorem c3_connect_no_fail_witness :
    (pn_proactor_connect initState 0 (some 5)).slots 0 =
      some ⟨false, [PnEvent.transportClosed 0 (some 5)], false⟩ :=
  (@c3_connect_no_fail initState 0 5 rfl rfl rfl).2.1

/-- C4: wake is at-least-once, coalescing, and serialized with the batch
protocol.  Repeated wake calls before delivery coalesce (a second call is a
no-op), a wake event is never delivered while a batch for that connection is
outstanding (so a wake requested during a batch surfaces only after its
done), and a wake call on a live connection of the proactor is eventually
followed by a delivered PN_CONNECTION_WAKE event (never zero). -/
theorem c4_wake (s : PState) (c : Cid) :
    (pn_connection_wake (pn_connection_wake s c) c = pn_connection_wake s c) ∧
    (∀ b s2, Reach s → Step s (Act.deliver b) s2 →
      PnEvent.connectionWake c ∈ b.events → busy s c = false) ∧
    (∀ sl, Reach s → s.slots c = some sl → sl.transportOpen = true →
      sl.wakePending = false →
      ∃ tr s2, Exec (pn_connection_wake s c) tr s2 ∧
        PnEvent.connectionWake c ∈ s2.delivered) := by
  refine ⟨?_, ?_, ?_⟩
  · cases hsl : s.slots c with
    | none => rw [wake_none hsl, wake_none hsl]
    | some sl =>
      cases hcond : (sl.transportOpen && !sl.wakePending) with
      | false => rw [wake_coalesce hsl hcond, wake_coalesce hsl hcond]
      | true =>
        have hsl2 : (pn_connection_wake s c).slots c =
            some (Slot.mk true (sl.pending ++ [PnEvent.connectionWake c])
              sl.transportOpen) := by
          rw [wake_set hsl hcond]
          simp [setSlot]
        exact wake_coalesce hsl2 (by simp)
  · intro b s2 hr hs hmem
    exact deliver_wake_not_busy (reach_wf hr) hs hmem
  · intro sl hr hsl hop hwp
    have hw := reach_wf hr
    have hcond : (sl.transportOpen && !sl.wakePending) = true := by
      rw [hop, hwp]
      rfl
    have heq := wake_set hsl hcond
    have hw2 : WF (pn_connection_wake s c) := wf_wakeF hw
    have hsl2 : (pn_connection_wake s c).slots c =
        some (Slot.mk true (sl.pending ++ [PnEvent.connectionWake c])
          sl.transportOpen) := by
      rw [heq]
      simp [setSlot]
    have hev : PnEvent.connectionWake c ∈
        (Slot.mk true (sl.pending ++ [PnEvent.connectionWake c])
          sl.transportOpen).pending :=
      List.mem_append_right _ (List.mem_singleton_self _)
    have hnc : closedFree (connFilter c (pn_connection_wake s c).delivered) := by
      rw [heq]
      show closedFree (connFilter c s.delivered)
      obtain ⟨rest, hrest⟩ := hw.genPrefix c
      have hfree := hw.openNoClosed c sl hsl hop
      rw [hrest] at hfree
      exact closedFree_of_append_left hfree
    obtain ⟨tr, s2, hexec, hmem⟩ := drain hw2 hsl2 hev hnc
    exact ⟨tr, s2, hexec, hmem⟩

theorem c4_wake_witness :
    ∃ tr s2, Exec (pn_connection_wake (pn_proactor_connect initState 0 none) 0) tr s2 ∧
      PnEvent.connectionWake 0 ∈ s2.delivered :=
  (c4_wake (pn_proactor_connect initState 0 none) 0).2.2 ⟨false, [], true⟩
    (Reach.step Reach.init (Step.connect rfl rfl rfl)) rfl rfl rfl

/-- C5: interrupt exactness.  In every reachable state the Interrupt Counter
plus the number of delivered interrupt events equals the number of
interrupt() calls; each call increments both the counter and the ledger by
one; each delivered interrupt batch consumes exactly one counter unit and
delivers exactly one interrupt event; and after k further calls the counter
can be drained to zero, delivering exactly the outstanding number of
interrupt events. -/
theorem c5_interrupt (s : PState) :
    (Reach s → s.interrupts + interruptCount s.delivered = s.interruptCalls) ∧
    ((pn_proactor_interrupt s).interrupts = s.interrupts + 1 ∧
      (pn_proactor_interrupt s).interruptCalls = s.interruptCalls + 1) ∧
    (0 < s.interrupts →
      (deliverInterrupt s).interrupts + 1 = s.interrupts ∧
      interruptCount (deliverInterrupt s).delivered = interruptCount s.delivered + 1) ∧
    (∀ k, ∃ tr s2, Exec s (List.replicate k Act.interrupt ++ tr) s2 ∧
      s2.interrupts = 0 ∧
      interruptCount s2.delivered = interruptCount s.delivered + (s.interrupts + k)) := by
  have hexec_k : ∀ (k : Nat) (s3 : PState),
      Exec s3 (List.replicate k Act.interrupt) (pn_proactor_interrupt^[k] s3) := by
    intro k
    induction k with
    | zero =>
      intro s3
      exact Exec.nil
    | succ n ih =>
      intro s3
      rw [List.replicate_succ, Function.iterate_succ_apply]
      exact Exec.cons Step.interrupt (ih (pn_proactor_interrupt s3))
  have hiter : ∀ (k : Nat), (pn_proactor_interrupt^[k] s).interrupts = s.interrupts + k ∧
      (pn_proactor_interrupt^[k] s).delivered = s.delivered := by
    intro k
    induction k with
    | zero => exact ⟨rfl, rfl⟩
    | succ n ih =>
      rw [Function.iterate_succ_apply']
      refine ⟨?_, ?_⟩
      · show (pn_proactor_interrupt^[n] s).interrupts + 1 = s.interrupts + (n + 1)
        omega
      · exact ih.2
  refine ⟨fun hr => (reach_wf hr).intrInv, ⟨rfl, rfl⟩, ?_, ?_⟩
  · intro hgt
    refine ⟨by show s.interrupts - 1 + 1 = s.interrupts; omega, ?_⟩
    show interruptCount (s.delivered ++ [PnEvent.proactorInterrupt]) =
      interruptCount s.delivered + 1
    rw [interruptCount_append, interruptCount_interrupt]
  · intro k
    obtain ⟨tr2, s2, hex2, h0, hcnt⟩ :=
      interrupt_drain (s.interrupts + k) (pn_proactor_interrupt^[k] s) (hiter k).1
    refine ⟨tr2, s2, exec_append (hexec_k k s) hex2, h0, ?_⟩
    rw [hcnt, (hiter k).2]

theorem c5_interrupt_witness :
    (deliverInterrupt (pn_proactor_interrupt initState)).interrupts + 1 =
      (pn_proactor_interrupt initState).interrupts ∧
    interruptCount (deliverInterrupt (pn_proactor_interrupt initState)).delivered =
      interruptCount (pn_proactor_interrupt initState).delivered + 1 :=
  (c5_interrupt (pn_proactor_interrupt initState)).2.2.1 (by decide)

/-- C6: single-timer replace semantics.  Re-arming replaces the previous
deadline (set m1 then set m2 equals set m2 alone, and the timer holds exactly
the most recent deadline); after set(100);set(500), any execution without
further set/cancel delivers at most one more timeout event and only once the
clock has advanced 500ms past the arming; and such an execution delivering
exactly one timeout event at clock+500 exists. -/
theorem c6_timer (s : PState) (hw : WF s) :
    (∀ m1 m2, pn_proactor_set_timeout (pn_proactor_set_timeout s m1) m2 =
      pn_proactor_set_timeout s m2) ∧
    (∀ m, (pn_proactor_set_timeout s m).timer = some (s.clock + m)) ∧
    (∀ tr s2,
      Exec (pn_proactor_set_timeout (pn_proactor_set_timeout s 100) 500) tr s2 →
      (∀ a ∈ tr, timerAct a = false) →
      timeoutCount s2.delivered ≤ timeoutCount s.delivered + 1 ∧
      (timeoutCount s.delivered < timeoutCount s2.delivered →
        s.clock + 500 ≤ s2.clock)) ∧
    (∃ tr s2,
      Exec (pn_proactor_set_timeout (pn_proactor_set_timeout s 100) 500) tr s2 ∧
      timeoutCount s2.delivered = timeoutCount s.delivered + 1 ∧
      s2.clock = s.clock + 500) := by
  have hw2 : WF (pn_proactor_set_timeout (pn_proactor_set_timeout s 100) 500) :=
    wf_setTimeoutF (wf_setTimeoutF hw)
  refine ⟨fun m1 m2 => rfl, fun m => rfl, ?_, ?_⟩
  · intro tr s2 hex hna
    constructor
    · have hb : timeoutCount s2.delivered + (if s2.timer.isSome then 1 else 0) ≤
          timeoutCount s.delivered + 1 := exec_timeout_bound hw2 hex hna
      omega
    · intro hcnt
      exact exec_fire_time hw2 hex hna rfl hcnt
  · refine ⟨[Act.tick 500,
      Act.deliver ⟨s.nextId, Source.proactorGlobal, [PnEvent.proactorTimeout]⟩],
      _, Exec.cons Step.tick (Exec.cons (Step.deliver_timeout rfl (Nat.le_refl _)) Exec.nil),
      ?_, rfl⟩
    show timeoutCount (s.delivered ++ [PnEvent.proactorTimeout]) =
      timeoutCount s.delivered + 1
    rw [timeoutCount_append, timeoutCount_timeout]

theorem c6_timer_witness :
    (pn_proactor_set_timeout initState 7).timer = some (initState.clock + 7) :=
  (c6_timer initState wf_init).2.1 7

/-- C7: wait blocks exactly until an item is ready and returns a non-empty
batch.  A delivery step (what wait returns) exists from a state if and only
if some item — interrupt, timer, or a non-busy connection with pending
events — is ready, and every delivered batch is non-empty. -/
theorem c7_wait (s : PState) :
    (∀ b s2, Step s (Act.deliver b) s2 → b.events ≠ []) ∧
    ((∃ b s2, Step s (Act.deliver b) s2) ↔ ready s) :=
  ⟨fun _ _ hs => deliver_nonempty hs, deliver_enabled_iff⟩

theorem c7_wait_witness : ([PnEvent.proactorInterrupt] : List PnEvent) ≠ [] :=
  (c7_wait (pn_proactor_interrupt initState)).1
    ⟨(pn_proactor_interrupt initState).nextId, Source.proactorGlobal,
      [PnEvent.proactorInterrupt]⟩
    (deliverInterrupt (pn_proactor_interrupt initState))
    (Step.deliver_interrupt (by decide))

/-- C8: get never blocks.  `pn_proactor_get` is a total function: it returns
`none` exactly when no item is ready, and when it returns a batch its
behaviour is identical to a wait delivery step for that batch. -/
theorem c8_get (s : PState) (hr : Reach s) :
    (pn_proactor_get s = none ↔ ¬ ready s) ∧
    (∀ b s2, pn_proactor_get s = some (b, s2) → Step s (Act.deliver b) s2) :=
  ⟨get_none_iff (reach_wf hr), fun _ _ h => get_some_step h⟩

theorem c8_get_witness : pn_proactor_get initState = none :=
  (c8_get initState Reach.init).1.mpr (by
    rintro (h | h | ⟨c, sl, h1, h2, h3⟩)
    · exact absurd h (by decide)
    · exact absurd h (by decide)
    · exact Option.noConfusion h1)

/-- C9: now() is monotone.  Along every step and every execution the
`pn_proactor_now` reading never decreases. -/
theorem c9_now_monotone :
    (∀ s a s2, Step s a s2 → pn_proactor_now s ≤ pn_proactor_now s2) ∧
    (∀ s tr s2, Exec s tr s2 → pn_proactor_now s ≤ pn_proactor_now s2) :=
  ⟨fun _ _ _ hs => step_clock hs, fun _ _ _ he => exec_clock he⟩

theorem c9_now_monotone_witness :
    pn_proactor_now initState ≤ pn_proactor_now (tickF initState 3) :=
  c9_now_monotone.1 initState (Act.tick 3) (tickF initState 3) Step.tick

/-- C10: on a connection that does not belong to the proactor
(`pn_connection_proactor` reports none), both `pn_proactor_release_connection`
and `pn_connection_wake` do nothing: the state is unchanged and no event is
produced. -/
theorem c10_no_proactor_noop (s : PState) (c : Cid)
    (h : pn_connection_proactor s c = false) :
    pn_proactor_release_connection s c = s ∧ pn_connection_wake s c = s := by
  have hn : s.slots c = none := by
    unfold pn_connection_proactor at h
    exact Option.not_isSome_iff_eq_none.mp (by simp [h])
  exact ⟨release_none hn, wake_none hn⟩

theorem c10_no_proactor_noop_witness :
    pn_proactor_release_connection initState 0 = initState ∧
    pn_connection_wake initState 0 = initState :=
  c10_no_proactor_noop initState 0 rfl

end Proactor
